import Mathlib

/-
  Verification development for the voluptuous schema-validation library
  (src/voluptuous.py, version 0.8.4).

  The definitions below are a shallow embedding of the validation core:
  Python values become the inductive type Value, schema trees become
  PySchema (with SKey for mapping keys, which may be Marker-wrapped), and
  the compiled validator closures produced by Schema._compile become Lean
  functions of type Validator.  Exceptions are modelled by an explicit
  Except monad: Exc.invalid models a single Invalid, Exc.multiple models
  MultipleInvalid, and Exc.runtime models a RuntimeError (needed for the
  PEP 479 behaviour of _iterate_object).  Compile-time SchemaError is
  modelled by the Except String layer of the compiler.
-/

namespace Voluptuous

/-- Python type tags used by the embedding (the types that occur in the
claims: int, str, bool, NoneType, list, dict). -/
inductive PyTy where
  | int
  | str
  | bool
  | none
  | list
  | dict
deriving DecidableEq

/-- Python values.  Dicts are modelled as association lists in insertion
order (CPython 3.7+ dicts preserve insertion order, which the mapping
validator relies on for its iteration and output order).  The obj
constructor models a plain Python object for the Object schema: its class
name, its vars() dictionary, and the name/value pairs reachable through
a possible slots declaration. -/
inductive Value where
  | int (n : Int)
  | str (s : String)
  | bool (b : Bool)
  | none
  | pytype (t : PyTy)
  | list (xs : List Value)
  | dict (ps : List (Value × Value))
  | set (xs : List Value)
  | obj (clsName : String) (attrs : List (String × Value)) (slots : List (String × Value))

mutual

/-- Python equality (the == used by validate_value when a literal schema is
compared against data, and by dict key lookup).  Python treats True == 1 and
False == 0, which the bool/int cross cases reproduce.  The list, dict, set
and obj branches compare componentwise in order; they are unreachable in
this development: list and dict literals are never compiled as scalar
schemas (Schema._compile dispatches them to the sequence and mapping
compilers first and rejects them as scalars), sets, dicts and lists are
unhashable and so can never be keys of an input dict, and default object
equality in Python is identity.  The branches exist only to make pyEq
total. -/
def pyEq : Value → Value → Bool
  | .int a, .int b => a == b
  | .bool a, .bool b => a == b
  | .bool a, .int b => (if a then (1 : Int) else 0) == b
  | .int a, .bool b => a == (if b then (1 : Int) else 0)
  | .str a, .str b => a == b
  | .none, .none => true
  | .pytype a, .pytype b => a == b
  | .list xs, .list ys => pyEqList xs ys
  | .dict ps, .dict qs => pyEqPairs ps qs
  | .set xs, .set ys => pyEqList xs ys
  | .obj c₁ a₁ s₁, .obj c₂ a₂ s₂ => c₁ == c₂ && pyEqStrPairs a₁ a₂ && pyEqStrPairs s₁ s₂
  | _, _ => false
termination_by structural v => v

/-- Componentwise list equality for pyEq. -/
def pyEqList : List Value → List Value → Bool
  | [], [] => true
  | x :: xs, y :: ys => pyEq x y && pyEqList xs ys
  | _, _ => false
termination_by structural l => l

/-- Componentwise pair-list equality for pyEq. -/
def pyEqPairs : List (Value × Value) → List (Value × Value) → Bool
  | [], [] => true
  | (k, v) :: ps, (k₂, w) :: qs => pyEq k k₂ && pyEq v w && pyEqPairs ps qs
  | _, _ => false
termination_by structural l => l

/-- Componentwise equality on string-keyed pair lists for pyEq. -/
def pyEqStrPairs : List (String × Value) → List (String × Value) → Bool
  | [], [] => true
  | (k, v) :: ps, (k₂, w) :: qs => k == k₂ && pyEq v w && pyEqStrPairs ps qs
  | _, _ => false
termination_by structural l => l

end

/-- Python isinstance check against the embedded type tags.  In Python,
bool is a subclass of int, so True and False are instances of int; the
converse does not hold: 1 and 0 are not instances of bool. -/
def isInstance : Value → PyTy → Bool
  | .int _, .int => true
  | .bool _, .bool => true
  | .bool _, .int => true
  | .str _, .str => true
  | .none, .none => true
  | .list _, .list => true
  | .dict _, .dict => true
  | _, _ => false

/-- Python type name, as used in error messages built with the %s of the
name of a type (validate_instance uses schema.__name__). -/
def tyName : PyTy → String
  | .int => "int"
  | .str => "str"
  | .bool => "bool"
  | .none => "NoneType"
  | .list => "list"
  | .dict => "dict"

/-- Assignment out[k] = v on an insertion-ordered dict: if a key equal to k
(under Python ==) is present, its value is updated in place (CPython keeps
the original key object and its position); otherwise the pair is appended. -/
def dictSet : List (Value × Value) → Value → Value → List (Value × Value)
  | [], k, v => [(k, v)]
  | (k₂, v₂) :: rest, k, v =>
      if pyEq k k₂ then (k₂, v) :: rest else (k₂, v₂) :: dictSet rest k v

/-- Model of the Invalid exception: message, data path, and the raw
error_message (Invalid.__init__ defaults error_message to the message). -/
structure Invalid where
  msg : String
  path : List Value
  error_message : String

/-- Exceptions that can escape a compiled validator.  invalid is a single
Invalid, multiple is MultipleInvalid (which in the source is itself an
Invalid subclass: an except Invalid clause catches both), runtime is a
RuntimeError, which no except clause in the library catches. -/
inductive Exc where
  | invalid (e : Invalid)
  | multiple (es : List Invalid)
  | runtime (msg : String)

/-- Path of an exception.  MultipleInvalid delegates to its first error
(MultipleInvalid.path returns self.errors[0].path); the empty-list default
is unreachable because MultipleInvalid is only ever raised non-empty. -/
def Exc.path : Exc → List Value
  | .invalid e => e.path
  | .multiple (e :: _) => e.path
  | .multiple [] => []
  | .runtime _ => []

/-- Message of an exception, with the same first-error delegation. -/
def Exc.msgOf : Exc → String
  | .invalid e => e.msg
  | .multiple (e :: _) => e.msg
  | .multiple [] => ""
  | .runtime m => m

/-- Raw error_message of an exception, with the same delegation. -/
def Exc.errmsgOf : Exc → String
  | .invalid e => e.error_message
  | .multiple (e :: _) => e.error_message
  | .multiple [] => ""
  | .runtime m => m

/-- Errors carried by an exception, as the list MultipleInvalid.errors
(validate_mapping extends with e.errors for MultipleInvalid and appends
the single error otherwise). -/
def Exc.errorsOf : Exc → List Invalid
  | .invalid e => [e]
  | .multiple es => es
  | .runtime _ => []

mutual

/-- Schema trees accepted by Schema(...), covering the constructs the
claims exercise.  val is a scalar literal, type an isinstance check, extra
the Extra sentinel, dict and object the mapping schemas (object carries the
optional target class name), list a sequence schema, set a set schema, and
anyOf the Any(...) combinator with its optional message. -/
inductive PySchema where
  | extra
  | val (v : Value)
  | type (t : PyTy)
  | dict (entries : List (SKey × PySchema))
  | object (cls : Option String) (entries : List (SKey × PySchema))
  | list (alts : List PySchema)
  | set (alts : List PySchema)
  | anyOf (alts : List PySchema) (msg : Option String)

/-- Keys of a mapping schema: either a bare schema node or a
Marker-wrapped one.  Required carries the optional custom message and the
optional default value (Required.__init__); Optional carries only the
optional message (in 0.8.4 Optional has no default). -/
inductive SKey where
  | plain (s : PySchema)
  | required (s : PySchema) (msg : Option String) (default : Option Value)
  | optional (s : PySchema) (msg : Option String)

end

/-- Wrapped schema node of a key (Marker.schema for markers, the key
itself for a bare key). -/
def SKey.schemaOf : SKey → PySchema
  | .plain s => s
  | .required s _ _ => s
  | .optional s _ => s

/-- Default value of a key, modelling getattr(key, .default., UNDEFINED):
only Required markers carry a default in 0.8.4. -/
def SKey.defaultOf : SKey → Option Value
  | .required _ _ d => d
  | _ => Option.none

/-- Custom message of a key, modelling hasattr(key, .msg.) and key.msg:
bare keys have no msg attribute. -/
def SKey.msgOf : SKey → Option String
  | .required _ m _ => m
  | .optional _ m => m
  | .plain _ => Option.none

/-- Whether the key is an Optional marker (isinstance(key, Optional)). -/
def SKey.isOptional : SKey → Bool
  | .optional _ _ => true
  | _ => false

/-- Whether the key is a Required marker (isinstance(key, Required)). -/
def SKey.isRequired : SKey → Bool
  | .required _ _ _ => true
  | _ => false

/-- Value form of a schema key as it is written into outputs and error
paths: out[key.schema] = key.default writes the wrapped schema value, and
the required-key error path appends the key itself, whose repr (used by
Invalid.__str__, the only consumer of path elements besides length
comparisons) is the repr of the wrapped schema.  Literal keys map to their
value and type keys to the corresponding type object; the none fallback is
unreachable for the key shapes that occur in mappings. -/
def SKey.keyValue : SKey → Value
  | .plain (.val v) => v
  | .plain (.type t) => .pytype t
  | .plain _ => .none
  | .required (.val v) _ _ => v
  | .required (.type t) _ _ => .pytype t
  | .required _ _ _ => .none
  | .optional (.val v) _ => v
  | .optional (.type t) _ => .pytype t
  | .optional _ _ => .none

/-- Schema configuration: the required and extra flags of Schema.__init__
(both default to False; extra is a two-valued boolean in this code). -/
structure Cfg where
  required : Bool
  extra : Bool

/-- Default configuration Schema(schema) with no keyword arguments. -/
def cfgDefault : Cfg := ⟨false, false⟩

/-- Compiled validators: a function of (path, data) that either returns
the (possibly transformed) value or raises. -/
abbrev Validator := List Value → Value → Except Exc Value

mutual

/-- Structural equality on values, used for required_keys.discard:
the discarded element is the very entry key that matched, so structural
equality coincides with the identity/hash-based equality of the Python
set (distinct keys of one schema dict are never equal to each other). -/
def valueBeq : Value → Value → Bool
  | .int a, .int b => a == b
  | .bool a, .bool b => a == b
  | .str a, .str b => a == b
  | .none, .none => true
  | .pytype a, .pytype b => a == b
  | .list xs, .list ys => valueListBeq xs ys
  | .dict ps, .dict qs => valuePairsBeq ps qs
  | .set xs, .set ys => valueListBeq xs ys
  | .obj c₁ a₁ s₁, .obj c₂ a₂ s₂ => c₁ == c₂ && valueStrPairsBeq a₁ a₂ && valueStrPairsBeq s₁ s₂
  | _, _ => false
termination_by structural v => v

/-- Structural equality on value lists. -/
def valueListBeq : List Value → List Value → Bool
  | [], [] => true
  | x :: xs, y :: ys => valueBeq x y && valueListBeq xs ys
  | _, _ => false
termination_by structural l => l

/-- Structural equality on value pair lists. -/
def valuePairsBeq : List (Value × Value) → List (Value × Value) → Bool
  | [], [] => true
  | (k, v) :: ps, (k₂, w) :: qs => valueBeq k k₂ && valueBeq v w && valuePairsBeq ps qs
  | _, _ => false
termination_by structural l => l

/-- Structural equality on string-keyed pair lists. -/
def valueStrPairsBeq : List (String × Value) → List (String × Value) → Bool
  | [], [] => true
  | (k, v) :: ps, (k₂, w) :: qs => k == k₂ && valueBeq v w && valueStrPairsBeq ps qs
  | _, _ => false
termination_by structural l => l

end

mutual

/-- Structural equality on schema trees. -/
def schemaBeq : PySchema → PySchema → Bool
  | .extra, .extra => true
  | .val a, .val b => valueBeq a b
  | .type a, .type b => a == b
  | .dict a, .dict b => entriesBeq a b
  | .object c₁ a, .object c₂ b => c₁ == c₂ && entriesBeq a b
  | .list a, .list b => schemasBeq a b
  | .set a, .set b => schemasBeq a b
  | .anyOf a m₁, .anyOf b m₂ => schemasBeq a b && m₁ == m₂
  | _, _ => false
termination_by structural s => s

/-- Structural equality on schema keys. -/
def skeyBeq : SKey → SKey → Bool
  | .plain a, .plain b => schemaBeq a b
  | .required a m₁ d₁, .required b m₂ d₂ =>
      schemaBeq a b && m₁ == m₂ &&
        (match d₁, d₂ with
         | Option.none, Option.none => true
         | Option.some x, Option.some y => valueBeq x y
         | _, _ => false)
  | .optional a m₁, .optional b m₂ => schemaBeq a b && m₁ == m₂
  | _, _ => false
termination_by structural k => k

/-- Structural equality on schema entry lists. -/
def entriesBeq : List (SKey × PySchema) → List (SKey × PySchema) → Bool
  | [], [] => true
  | (k, v) :: ps, (k₂, w) :: qs => skeyBeq k k₂ && schemaBeq v w && entriesBeq ps qs
  | _, _ => false
termination_by structural l => l

/-- Structural equality on schema lists. -/
def schemasBeq : List PySchema → List PySchema → Bool
  | [], [] => true
  | x :: xs, y :: ys => schemaBeq x y && schemasBeq xs ys
  | _, _ => false
termination_by structural l => l

end

/-- Removal of the first occurrence of a key from the required-keys list,
modelling required_keys.discard(skey) on the Python set (required_keys
is modelled as a list in schema order, since CPython set iteration order
is unspecified; the claims below never depend on the order of more than
one remaining required key). -/
def eraseSKey : List SKey → SKey → List SKey
  | [], _ => []
  | k :: rest, sk => if skeyBeq k sk then rest else k :: eraseSKey rest sk

/-- Compiled form of a type schema (the validate_instance closure of
_compile_scalar): isinstance check, returning the data unchanged. -/
def validate_instance (t : PyTy) : Validator := fun path data =>
  if isInstance data t then .ok data
  else .error (.invalid ⟨"expected " ++ tyName t, path, "expected " ++ tyName t⟩)

/-- Compiled form of a literal scalar schema (the validate_value closure of
_compile_scalar): Python equality check, returning the data unchanged. -/
def validate_value (v : Value) : Validator := fun path data =>
  if pyEq data v then .ok data
  else .error (.invalid ⟨"not a valid value", path, "not a valid value"⟩)

/-- Compiled form of a callable schema (the validate_callable closure of
_compile_scalar): call the function; an Invalid raised by it (including a
MultipleInvalid, whose msg/path/error_message delegate to its first error)
is re-raised as Invalid(e.msg, path + e.path, e.error_message).  The
ValueError branch of the source is not modelled: none of the embedded
callables raises ValueError.  A RuntimeError is not caught. -/
def validate_callable (f : Value → Except Exc Value) : Validator := fun path data =>
  match f data with
  | .ok r => .ok r
  | .error (.runtime m) => .error (.runtime m)
  | .error e => .error (.invalid ⟨Exc.msgOf e, path ++ Exc.path e, Exc.errmsgOf e⟩)

/-- Promotion of a single Invalid to MultipleInvalid, as done by
Schema.__call__ (a MultipleInvalid is re-raised unchanged; other errors,
that is RuntimeError, propagate untouched). -/
def wrapMulti : Except Exc Value → Except Exc Value
  | .error (.invalid e) => .error (.multiple [e])
  | r => r

/-- Schema.__call__ behaviour on a compiled root node: validate from the
empty path, wrapping a single Invalid into MultipleInvalid. -/
def schemaCallOf (f : Validator) : Value → Except Exc Value :=
  fun v => wrapMulti (f [] v)

/-- Marker.__call__: run the wrapped Schema (built with default flags by
Marker.__init__); on Invalid, re-raise unless a custom msg is set and the
error path has length at most 1, in which case raise Invalid(msg). -/
def markerCall (g : Value → Except Exc Value) (msg : Option String) (v : Value) :
    Except Exc Value :=
  match g v with
  | .ok r => .ok r
  | .error (.runtime m) => .error (.runtime m)
  | .error e =>
      match msg with
      | Option.none => .error e
      | Option.some m =>
          if (Exc.path e).length > 1 then .error e
          else .error (.invalid ⟨m, [], m⟩)

/-- Loop of the Any combinator closure f: try each wrapped Schema in
order; return the first success; remember the error whose path is
strictly longest (ties keep the earlier error); when all fail raise the
remembered error, or Invalid(msg or a generic message) when there was no
schema at all.  RuntimeError is not caught by the except Invalid clause. -/
def anyGo (msg : Option String) (v : Value) :
    List (Value → Except Exc Value) → Option Exc → Except Exc Value
  | [], Option.none =>
      let m := msg.getD "no valid value found"
      .error (.invalid ⟨m, [], m⟩)
  | [], Option.some e => .error e
  | g :: rest, best =>
      match g v with
      | .ok r => .ok r
      | .error (.runtime m) => .error (.runtime m)
      | .error e =>
          anyGo msg v rest
            (Option.some
              (match best with
               | Option.none => e
               | Option.some b =>
                   if (Exc.path e).length > (Exc.path b).length then e else b))

/-- Compiled Any(...) callable (the closure f in the Any factory). -/
def anyF (gs : List (Value → Except Exc Value)) (msg : Option String)
    (v : Value) : Except Exc Value :=
  anyGo msg v gs Option.none

/-- One entry of the _compiled_schema table: the schema key together with
its compiled key and value validators. -/
structure CEntry where
  skey : SKey
  ckey : Validator
  cvalue : Validator

/-- Outcome of the candidate scan of validate_mapping for one input pair. -/
inductive ScanOut where
  | matched (out : List (Value × Value)) (sk : SKey)
  | verr (es : List Invalid)
  | unmatched
  | raised (e : Exc)

/-- Decoration of collected value errors: errors whose path extends past
the key path are kept, the others get the context suffix appended to the
message while error_message keeps the original message. -/
def decorateErrors (invalidMsg : String) (keyPath : List Value) :
    List Invalid → List Invalid
  | [] => []
  | err :: rest =>
      (if err.path.length > keyPath.length then err
       else ⟨err.msg ++ invalidMsg, err.path, err.msg⟩) :: decorateErrors invalidMsg keyPath rest

/-- Candidate scan of validate_mapping for one input (key, value) pair:
try each (ckey, cvalue) entry of _compiled_schema in schema order.  A key
error deeper than the key path is re-raised; other key errors move on to
the next candidate (the source also remembers the deepest such key error
in a local variable, but in 0.8.4 that variable is never used afterwards,
so it is not threaded here).  Once a key matches there is no backtracking:
a value failure collects the decorated errors and stops the scan, a value
success updates the output and reports the matched schema key.  The first
component of the result counts the compiled-key invocations performed,
instrumentation used by the linearity claim; it is not part of the source
semantics. -/
def scanC (invalidMsg : String) (keyPath : List Value) (key value : Value)
    (out : List (Value × Value)) : List CEntry → Nat × ScanOut
  | [] => (0, .unmatched)
  | ce :: rest =>
      match ce.ckey keyPath key with
      | .error (.runtime m) => (1, .raised (.runtime m))
      | .error e =>
          if (Exc.path e).length > keyPath.length then (1, .raised e)
          else
            let (n, r) := scanC invalidMsg keyPath key value out rest
            (n + 1, r)
      | .ok newKey =>
          match ce.cvalue keyPath value with
          | .ok v => (1, .matched (dictSet out newKey v) ce.skey)
          | .error (.runtime m) => (1, .raised (.runtime m))
          | .error e => (1, .verr (decorateErrors invalidMsg keyPath (Exc.errorsOf e)))

/-- Main loop of validate_mapping over the input pairs, threading the
output dict, the collected error list and the remaining required keys.
A matched pair discards its schema key from the required set; a value
failure keeps it (the source only discards on full key-and-value
success).  An unmatched pair is copied through under extra and otherwise
contributes an extra-keys-not-allowed error.  The Nat component counts
compiled-key invocations (instrumentation, see scanC). -/
def mappingLoop (cfg : Cfg) (invalidMsg : String) (centries : List CEntry)
    (path : List Value) :
    List (Value × Value) → List (Value × Value) → List Invalid → List SKey →
      Nat × Except Exc (List (Value × Value) × List Invalid × List SKey)
  | [], out, errors, req => (0, .ok (out, errors, req))
  | (key, value) :: rest, out, errors, req =>
      match scanC invalidMsg (path ++ [key]) key value out centries with
      | (n, .raised e) => (n, .error e)
      | (n, .matched out₂ sk) =>
          let r := mappingLoop cfg invalidMsg centries path rest out₂ errors (eraseSKey req sk)
          (n + r.1, r.2)
      | (n, .verr es) =>
          let r := mappingLoop cfg invalidMsg centries path rest out (errors ++ es) req
          (n + r.1, r.2)
      | (n, .unmatched) =>
          if cfg.extra then
            let r := mappingLoop cfg invalidMsg centries path rest (dictSet out key value) errors req
            (n + r.1, r.2)
          else
            let r := mappingLoop cfg invalidMsg centries path rest out
              (errors ++ [⟨"extra keys not allowed", path ++ [key], "extra keys not allowed"⟩]) req
            (n + r.1, r.2)

/-- Post-pass of validate_mapping over the required keys that were never
matched: a key with a default writes out[key.schema] = key.default
(without running the value validator), a key without one records a
required-key error (with the custom marker message when present) at
path + [key]. -/
def requiredPass (path : List Value) :
    List SKey → List (Value × Value) → List Invalid →
      List (Value × Value) × List Invalid
  | [], out, errors => (out, errors)
  | k :: rest, out, errors =>
      match SKey.defaultOf k with
      | Option.some d => requiredPass path rest (dictSet out (SKey.keyValue k) d) errors
      | Option.none =>
          let m := (SKey.msgOf k).getD "required key not provided"
          requiredPass path rest out (errors ++ [⟨m, path ++ [SKey.keyValue k], m⟩])

/-- Body of the validate_mapping closure produced by _compile_mapping:
run the main loop, then the required-keys pass, then raise the aggregate
MultipleInvalid when any error was collected. -/
def validate_mapping (cfg : Cfg) (invalidMsg : String) (centries : List CEntry)
    (defReq : List SKey) (path : List Value) (pairs : List (Value × Value))
    (out₀ : List (Value × Value)) : Except Exc (List (Value × Value)) :=
  match (mappingLoop cfg invalidMsg centries path pairs out₀ [] defReq).2 with
  | .error e => .error e
  | .ok (out, errors, req) =>
      let (out₂, errors₂) := requiredPass path req out errors
      if errors₂.isEmpty then .ok out₂ else .error (.multiple errors₂)

/-- Compiled dict schema (the validate_dict closure of _compile_dict):
only a dict is accepted, the output container starts empty, and the
mapping validator (with the for-dictionary-value context message) runs on
the items in insertion order. -/
def validate_dict (cfg : Cfg) (centries : List CEntry) (defReq : List SKey) :
    Validator := fun path data =>
  match data with
  | .dict pairs =>
      (validate_mapping cfg " for dictionary value" centries defReq path pairs []).map Value.dict
  | _ => .error (.invalid ⟨"expected a dictionary", path, "expected a dictionary"⟩)

/-- Outcome of the alternatives loop of validate_sequence for one element. -/
inductive SeqAltOut where
  | ok (v : Value)
  | failed (invalid : Option Exc)
  | raised (e : Exc)

/-- Alternatives loop of validate_sequence for one element: try each
compiled alternative in order; the first success wins; an error whose
path is deeper than the index path is re-raised immediately (aborting the
whole sequence validation); other errors are remembered and the next
alternative is tried. -/
def altLoop (indexPath : List Value) (value : Value) :
    List Validator → Option Exc → SeqAltOut
  | [], inv => .failed inv
  | g :: rest, _inv =>
      match g indexPath value with
      | .ok o => .ok o
      | .error (.runtime m) => .raised (.runtime m)
      | .error e =>
          if (Exc.path e).length > indexPath.length then .raised e
          else altLoop indexPath value rest (Option.some e)

/-- Synthetic-error selection of validate_sequence for one failed
element: the remembered error is replaced by the generic
invalid-sequence-value error at the index path when it does not extend
past the element, which is always the case for errors the alternatives
loop keeps (deeper ones were re-raised), so the keep branch (which
flattens the remembered error through the MultipleInvalid delegating
accessors) and the no-remembered-error branch (the compiled list is
non-empty whenever the loop runs) are unreachable. -/
def seqElemErr (tn : String) (indexPath : List Value) : Option Exc → Invalid
  | Option.some e =>
      if (Exc.path e).length ≤ indexPath.length then
        ⟨"invalid " ++ tn ++ " value", indexPath, "invalid " ++ tn ++ " value"⟩
      else ⟨Exc.msgOf e, Exc.path e, Exc.errmsgOf e⟩
  | Option.none =>
      ⟨"invalid " ++ tn ++ " value", indexPath, "invalid " ++ tn ++ " value"⟩

/-- Element loop of validate_sequence: for each element (with its index
path) run the alternatives loop; successes are appended to the output, a
failure appends the one error chosen by seqElemErr for the element. -/
def seqLoop (compiled : List Validator) (tn : String) (path : List Value) :
    List Value → Nat → List Value → List Invalid →
      Except Exc (List Value × List Invalid)
  | [], _, out, errors => .ok (out, errors)
  | v :: rest, i, out, errors =>
      match altLoop (path ++ [.int (i : Int)]) v compiled Option.none with
      | .ok o => seqLoop compiled tn path rest (i + 1) (out ++ [o]) errors
      | .raised e => .error e
      | .failed inv =>
          seqLoop compiled tn path rest (i + 1) out
            (errors ++ [seqElemErr tn (path ++ [.int (i : Int)]) inv])

/-- Compiled sequence schema (the validate_sequence closure of
_compile_sequence, with seq_type list): check the container type, pass any
data through when the schema sequence is empty, run the element loop, and
raise the aggregate when errors were collected. -/
def validate_sequence (compiled : List Validator) (schemaEmpty : Bool)
    (tn : String) : Validator := fun path data =>
  match data with
  | .list xs =>
      if schemaEmpty then .ok (.list xs)
      else
        match seqLoop compiled tn path xs 0 [] [] with
        | .error e => .error e
        | .ok (out, errors) =>
            if errors.isEmpty then .ok (.list out) else .error (.multiple errors)
  | _ => .error (.invalid ⟨"expected a " ++ tn, path, "expected a " ++ tn⟩)

/-- Attribute pairs yielded by the _iterate_object generator before its
trailing raise: the vars() dictionary items followed by the slot values
(skipping a possible dict slot).  The TypeError/namedtuple fallback for
objects without a vars() dictionary is not modelled: embedded objects
always carry their attrs list. -/
def _iterate_object (attrs slots : List (String × Value)) : List (String × Value) :=
  attrs ++ slots.filter (fun it => it.1 != "__dict__")

/-- Truth of: the value is the Python None (used by the is-not-None item
filter of _compile_object). -/
def isNoneValue : Value → Bool
  | .none => true
  | _ => false

/-- Compiled Object schema (the validate_object closure of
_compile_object).  After the optional isinstance check (modelled as class
name equality), the validate_mapping for-loop consumes the _iterate_object
generator filtered to non-None values.  The generator ends with an
explicit raise StopIteration(); on any Python implementing PEP 479
(CPython 3.7 and later) that raise surfaces as
RuntimeError("generator raised StopIteration") when the for-loop requests
the item after the last one.  Hence the loop body runs for every yielded
pair and then the RuntimeError aborts validation before the required-keys
pass and the output reconstruction, which are unreachable; an exception
raised by the loop body itself (a deep key error or a nested RuntimeError)
propagates first.  Non-object data with no class configured reaches
vars(), which raises TypeError, leaving an empty item dict — and the
trailing raise still fires. -/
def validate_object (cfg : Cfg) (cls : Option String) (centries : List CEntry)
    (defReq : List SKey) : Validator := fun path data =>
  match data with
  | .obj cn attrs slots =>
      if (match cls with | Option.some c => c == cn | Option.none => true) then
        let items := (_iterate_object attrs slots).filter (fun it => !isNoneValue it.2)
        match (mappingLoop cfg " for object value" centries path
                (items.map (fun it => (Value.str it.1, it.2))) [] [] defReq).2 with
        | .error e => .error e
        | .ok _ => .error (.runtime "generator raised StopIteration")
      else
        .error (.invalid ⟨"expected a " ++ cls.getD "", path, "expected a " ++ cls.getD ""⟩)
  | _ =>
      match cls with
      | Option.some c => .error (.invalid ⟨"expected a " ++ c, path, "expected a " ++ c⟩)
      | Option.none => .error (.runtime "generator raised StopIteration")

/-- Keys considered required by default, from _compile_mapping: every
Required-marked key, and, when the required flag of the Schema is set,
every key that is not Optional-marked.  Modelled as a list in schema
order (see eraseSKey about the set order). -/
def defaultRequired (cfg : Cfg) (entries : List (SKey × PySchema)) : List SKey :=
  (entries.map Prod.fst).filter fun k =>
    (cfg.required && !(SKey.isOptional k)) || SKey.isRequired k

mutual

/-- Schema._compile, fused with the closure constructions of the helper
compilers.  The Extra sentinel compiles to the identity; Object, dict and
list schemas compile their parts and close over them; every other node
goes through the scalar dispatch.  That dispatch accepts int, str and
NoneType literals, type references, and callables (the Any combinator and
the markers); it rejects everything else — in particular bool literals
such as True, and set schemas, are not in the supported-type tuple and are
not callable, so Schema(True) and Schema([set literal]) raise SchemaError
("unsupported schema data type ...") at construction time.  List and dict
literals never reach the scalar dispatch in Python (they are caught by the
sequence and mapping branches first); the corresponding val branches are
rejected here because this AST reserves the dedicated constructors for
them. -/
def compile (cfg : Cfg) : PySchema → Except String Validator
  | .extra => .ok fun _ v => .ok v
  | .object cls entries => do
      let cs ← compileEntries cfg entries
      .ok (validate_object cfg cls cs (defaultRequired cfg entries))
  | .dict entries => do
      let cs ← compileEntries cfg entries
      .ok (validate_dict cfg cs (defaultRequired cfg entries))
  | .list alts => do
      let cs ← compileList cfg alts
      .ok (validate_sequence cs alts.isEmpty "list")
  | .set _ => .error "unsupported schema data type set"
  | .anyOf alts msg => do
      let gs ← compileSchemas alts
      .ok (validate_callable (anyF gs msg))
  | .type t => .ok (validate_instance t)
  | .val v =>
      match v with
      | .int _ => .ok (validate_value v)
      | .str _ => .ok (validate_value v)
      | .none => .ok (validate_value v)
      | .pytype t => .ok (validate_instance t)
      | .bool _ => .error "unsupported schema data type bool"
      | .list _ => .error "unsupported schema data type list"
      | .dict _ => .error "unsupported schema data type dict"
      | .set _ => .error "unsupported schema data type set"
      | .obj _ _ _ => .error "unsupported schema data type instance"
termination_by structural s => s

/-- Compilation of the _compiled_schema table: each (skey, svalue) entry
yields its compiled key and value validators, in schema order. -/
def compileEntries (cfg : Cfg) :
    List (SKey × PySchema) → Except String (List CEntry)
  | [] => .ok []
  | (sk, sv) :: rest => do
      let ck ← compileSKey cfg sk
      let cv ← compile cfg sv
      let cs ← compileEntries cfg rest
      .ok (⟨sk, ck, cv⟩ :: cs)
termination_by structural l => l

/-- Compilation of a schema key.  A bare key compiles like any schema
node.  A marker is a callable, so the scalar dispatch wraps it in
validate_callable; the call itself runs the Schema that Marker.__init__
built around the wrapped node with default flags (compile with cfgDefault
followed by schemaCallOf, the Schema.__call__ behaviour). -/
def compileSKey (cfg : Cfg) : SKey → Except String Validator
  | .plain s => compile cfg s
  | .required s msg _ => do
      let f ← compile cfgDefault s
      .ok (validate_callable (markerCall (schemaCallOf f) msg))
  | .optional s msg => do
      let f ← compile cfgDefault s
      .ok (validate_callable (markerCall (schemaCallOf f) msg))
termination_by structural k => k

/-- Compilation of the alternatives of a sequence schema, in order. -/
def compileList (cfg : Cfg) : List PySchema → Except String (List Validator)
  | [] => .ok []
  | s :: rest => do
      let c ← compile cfg s
      let cs ← compileList cfg rest
      .ok (c :: cs)
termination_by structural l => l

/-- Compilation of the sub-Schemas of the Any combinator, in order (the
Any factory builds Schema(val) for each argument with default flags, and
each is invoked through Schema.__call__). -/
def compileSchemas : List PySchema → Except String (List (Value → Except Exc Value))
  | [] => .ok []
  | s :: rest => do
      let f ← compile cfgDefault s
      let gs ← compileSchemas rest
      .ok (schemaCallOf f :: gs)
termination_by structural l => l

end

/-- Schema construction plus Schema.__call__: the public validate
function.  The Except String layer is the SchemaError of construction. -/
def schemaFn (cfg : Cfg) (s : PySchema) :
    Except String (Value → Except Exc Value) := do
  let f ← compile cfg s
  .ok (schemaCallOf f)

/-- One full validation run: construct the schema and apply it to data. -/
def runSchema (cfg : Cfg) (s : PySchema) (v : Value) :
    Except String (Except Exc Value) :=
  (schemaFn cfg s).map (fun g => g v)

/-- Construction and one call of the Any(...) combinator itself (the raw
callable f, before it is wrapped as a schema node), as in Any(a, b)(v). -/
def runAny (alts : List PySchema) (msg : Option String) (v : Value) :
    Except String (Except Exc Value) :=
  (compileSchemas alts).map (fun gs => anyF gs msg v)

/-- Number of compiled-key invocations performed by one validate_mapping
run of a dict schema on the given input pairs: the instrumentation counter
threaded through mappingLoop, read off the same loop that validate_dict
uses.  Construction failure counts zero. -/
def attemptsOfDict (cfg : Cfg) (entries : List (SKey × PySchema))
    (pairs : List (Value × Value)) : Nat :=
  match compileEntries cfg entries with
  | .error _ => 0
  | .ok cs =>
      (mappingLoop cfg " for dictionary value" cs [] pairs [] [] (defaultRequired cfg entries)).1

/-- Construction and one call of an Object schema through runSchema would
need the full AST; this wrapper compiles the entry table directly, as
_compile_object does, and runs the validate_object closure at the root
path. -/
def runObject (cfg : Cfg) (cls : Option String) (entries : List (SKey × PySchema))
    (v : Value) : Except String (Except Exc Value) :=
  (compileEntries cfg entries).map
    (fun cs => wrapMulti (validate_object cfg cls cs (defaultRequired cfg entries) [] v))

/-- Truth of: the element validates against at least one of the allowed
element-schemas of a set schema (each alternative compiled and run at the
set's own path, as the set matcher does). -/
def setElementOk (alts : List PySchema) (path : List Value) (x : Value) : Bool :=
  alts.any fun s =>
    match compile cfgDefault s with
    | .ok f =>
        match f path x with
        | .ok _ => true
        | .error _ => false
    | .error _ => false

/-- Modelled from the spec: the set/frozenset compiler of the package's
schema_builder module, which is not present under src/ (only its tests, in
src/voluptuous/tests/tests.py, are).  Spec section 4.5: the matcher
validates the container type first ("expected a set"), then validates
each element against the set of allowed element-schemas, collecting a
single generic "invalid value in set" error if any element fails —
element-level errors are not individually path-tracked by index, they are
reported in aggregate at the set's own path. -/
def validate_set (alts : List PySchema) : Validator := fun path data =>
  match data with
  | .set xs =>
      if xs.all (fun x => setElementOk alts path x) then .ok data
      else .error (.multiple [⟨"invalid value in set", path, "invalid value in set"⟩])
  | _ => .error (.invalid ⟨"expected a set", path, "expected a set"⟩)

/-- Family of mapping schemas for the linearity claim: n concrete integer
literal keys 0, 1, ..., n-1, each with value schema int. -/
def familyEntries (n : Nat) : List (SKey × PySchema) :=
  (List.range n).map fun (j : Nat) => (SKey.plain (.val (.int (j : Int))), PySchema.type .int)

/-- Matching input for familyEntries: the same n keys in the same order,
each mapped to a valid int value, so every input key matches a distinct
schema key. -/
def familyPairs (n : Nat) : List (Value × Value) :=
  (List.range n).map fun (k : Nat) => (Value.int (k : Int), Value.int 0)

/-- Bare scalar-literal keys: the marker-free, pattern-free mapping keys
of the pure schema fragment. -/
def pureKey : SKey → Bool
  | .plain (.val (.int _)) => true
  | .plain (.val (.str _)) => true
  | .plain (.val .none) => true
  | _ => false

mutual

/-- Pure (transformation-free) schema fragment: scalar literals, type
checks, sequence schemas of pure alternatives, and mapping schemas whose
keys are bare scalar literals and whose values are pure.  No markers (so
no defaults), no callables, no Extra, no Object. -/
def pureSchema : PySchema → Bool
  | .val (.int _) => true
  | .val (.str _) => true
  | .val .none => true
  | .type _ => true
  | .list alts => pureSchemas alts
  | .dict entries => pureEntries entries
  | _ => false
termination_by structural s => s

/-- Pure fragment check on alternative lists. -/
def pureSchemas : List PySchema → Bool
  | [] => true
  | s :: rest => pureSchema s && pureSchemas rest
termination_by structural l => l

/-- Pure fragment check on entry lists. -/
def pureEntries : List (SKey × PySchema) → Bool
  | [] => true
  | (k, v) :: rest => pureKey k && pureSchema v && pureEntries rest
termination_by structural l => l

end

/-- Truth of: no key of the pair list is Python-equal to k. -/
def keyNotIn (k : Value) : List (Value × Value) → Bool
  | [] => true
  | (k₂, _) :: rest => !pyEq k k₂ && keyNotIn k rest

/-- Hashable scalar values: the value shapes that can be keys of a real
Python dict in this fragment.  Lists, dicts and sets are unhashable in
Python and can never be dict keys; objects are hashable but compare by
identity and stay outside the pure fragment. -/
def hashableKey : Value → Bool
  | .int _ => true
  | .str _ => true
  | .bool _ => true
  | .none => true
  | .pytype _ => true
  | _ => false

mutual

/-- Well-formed values: every dict reachable inside the value has
pairwise distinct keys under Python equality (true of every value built
by the Python runtime, where dicts cannot hold duplicate keys). -/
def wfValue : Value → Bool
  | .list xs => wfValues xs
  | .dict ps => wfPairs ps
  | _ => true
termination_by structural v => v

/-- Well-formedness of value lists. -/
def wfValues : List Value → Bool
  | [] => true
  | x :: xs => wfValue x && wfValues xs
termination_by structural l => l

/-- Well-formedness of dict pair lists: keys are hashable scalars and
pairwise distinct under Python equality (as in every dict the Python
runtime can build), keys and values recursively well-formed. -/
def wfPairs : List (Value × Value) → Bool
  | [] => true
  | (k, v) :: rest =>
      hashableKey k && keyNotIn k rest && wfValue k && wfValue v && wfPairs rest
termination_by structural l => l

end

/-- Identity on well-formed data: the validator returns every well-formed
value it accepts unchanged. -/
def IdOnWf (f : Validator) : Prop :=
  ∀ (p : List Value) (x y : Value), wfValue x = true → f p x = .ok y → y = x

/-- The validator never raises an empty MultipleInvalid (the library only
ever aggregates non-empty error lists). -/
def NoEmptyMulti (f : Validator) : Prop :=
  ∀ (p : List Value) (x : Value) (es : List Invalid),
    f p x = .error (.multiple es) → es ≠ []

/-- Flat compiled keys: every key validator of the entry table either
accepts or fails with a single Invalid located exactly at the given path
(never deeper and never with a RuntimeError).  Literal-keyed entry tables
have this property. -/
def FlatKeys (cs : List CEntry) : Prop :=
  ∀ ce ∈ cs, ∀ (p : List Value) (x : Value),
    (∃ w, ce.ckey p x = .ok w) ∨
    (∃ e : Invalid, ce.ckey p x = .error (.invalid e) ∧ e.path = p)

/-- Flat validators: failure is always a single Invalid located exactly
at the path the validator is handed (never deeper, never a RuntimeError,
never an aggregate).  The literal and isinstance validators — that is,
every compiled scalar-literal or type schema — are flat. -/
def FlatVal (f : Validator) : Prop :=
  ∀ (p : List Value) (x : Value),
    (∃ w, f p x = .ok w) ∨
    (∃ e : Invalid, f p x = .error (.invalid e) ∧ e.path = p)

/-- Truth of: the alternatives loop rejects the element (used to spell
out which elements of a sequence contribute a synthetic error). -/
def seqElemFails (cs : List Validator) (ip : List Value) (v : Value) : Bool :=
  match altLoop ip v cs Option.none with
  | .ok _ => false
  | _ => true

/-- The errors a sequence validation collects over its elements: one
synthetic invalid-value error per failing element, at the element's own
index path, in element order. -/
def seqErrsAll (cs : List Validator) (tn : String) (path : List Value) :
    List Value → Nat → List Invalid
  | [], _ => []
  | v :: rest, i =>
      (if seqElemFails cs (path ++ [.int (i : Int)]) v
       then [⟨"invalid " ++ tn ++ " value", path ++ [.int (i : Int)],
              "invalid " ++ tn ++ " value"⟩]
       else []) ++ seqErrsAll cs tn path rest (i + 1)

/-- The errors one input pair contributes to a mapping validation: the
decorated value errors of the candidate that matched its key, or the
extra-keys error when no candidate matches and extra keys are forbidden.
The outcome kind of the candidate scan does not depend on the output
accumulator, so the pair's contribution is well-defined independently of
the other pairs and is read off a scan from an empty accumulator. -/
def pairErrs (cfg : Cfg) (msg : String) (cs : List CEntry) (path : List Value)
    (key value : Value) : List Invalid :=
  match (scanC msg (path ++ [key]) key value [] cs).2 with
  | .verr es => es
  | .unmatched =>
      if cfg.extra then []
      else [⟨"extra keys not allowed", path ++ [key], "extra keys not allowed"⟩]
  | _ => []

/-- The errors a mapping validation collects over its input pairs, in
insertion order: the concatenation of each pair's independent
contribution. -/
def dictErrsAll (cfg : Cfg) (msg : String) (cs : List CEntry) (path : List Value) :
    List (Value × Value) → List Invalid
  | [] => []
  | (k, v) :: rest =>
      pairErrs cfg msg cs path k v ++ dictErrsAll cfg msg cs path rest

/-- C3: for the schema with key Required("k", default=5) and value schema
int, validating the empty dict succeeds with output containing k mapped
to 5; for the same schema without a default, validation raises the
aggregate with exactly one required-key-not-provided error whose path is
the single element "k" (the source appends the Required marker object to
the path; its repr — the only way the library ever consumes a path
element besides comparing lengths — is the repr of the wrapped key, so
the path element is modelled by the wrapped key value, see
SKey.keyValue). -/
theorem c3_required_default_and_missing :
    runSchema cfgDefault
        (.dict [(.required (.val (.str "k")) Option.none (Option.some (.int 5)),
                 .type .int)])
        (.dict []) = .ok (.ok (.dict [(.str "k", .int 5)])) ∧
    runSchema cfgDefault
        (.dict [(.required (.val (.str "k")) Option.none Option.none, .type .int)])
        (.dict []) =
      .ok (.error (.multiple
        [⟨"required key not provided", [.str "k"], "required key not provided"⟩])) :=
  ⟨rfl, rfl⟩

/-- C4 counterexample: the extra option of Schema.__init__ is a Bool (see
Cfg, mirroring the extra=False default), not a three-valued enum.  Both
of its values are enumerated here on the schema-dict-empty example: False
(the forbid default) rejects with the extra-keys-not-allowed error, True
(allow) copies the unmatched pair through unchanged.  No value of the
option drops the pair silently, so the claimed remove policy does not
exist in this code. -/
theorem c4_extra_two_valued_counterexample :
    runSchema ⟨false, false⟩ (.dict []) (.dict [(.str "x", .int 1)]) =
      .ok (.error (.multiple
        [⟨"extra keys not allowed", [.str "x"], "extra keys not allowed"⟩])) ∧
    runSchema ⟨false, true⟩ (.dict []) (.dict [(.str "x", .int 1)]) =
      .ok (.ok (.dict [(.str "x", .int 1)])) :=
  ⟨rfl, rfl⟩

/-- C4 amended: the extra option takes one of two values: under the
default forbid (false) the empty dict schema rejects the input with an
extra-keys-not-allowed error at path ["x"]; under allow (true) the
unmatched pair is copied through unchanged.  There is no remove value. -/
theorem c4_extra_policy_bool :
    ∀ b : Bool,
      runSchema ⟨false, b⟩ (.dict []) (.dict [(.str "x", .int 1)]) =
        if b then .ok (.ok (.dict [(.str "x", .int 1)]))
        else .ok (.error (.multiple
          [⟨"extra keys not allowed", [.str "x"], "extra keys not allowed"⟩])) := by
  intro b
  cases b <;> rfl

/-- C6 counterexample: a schema consisting of the literal value True does
not accept anything — Schema construction itself fails, because bool is
not in the supported scalar type tuple of Schema._compile and True is not
callable, so _compile raises SchemaError("unsupported schema data type
bool") before any value can be validated. -/
theorem c6_literal_true_schemaerror_counterexample :
    runSchema cfgDefault (.val (.bool true)) (.bool true) =
      .error "unsupported schema data type bool" :=
  rfl

/-- C6 amended: the type schema bool rejects 1, 0 and the empty string by
the isinstance check (no bool coercion) while accepting True; the literal
schema True is not supported at all — compiling it raises SchemaError, so
it accepts neither True nor 1. -/
theorem c6_bool_type_vs_literal :
    runSchema cfgDefault (.type .bool) (.int 1) =
      .ok (.error (.multiple [⟨"expected bool", [], "expected bool"⟩])) ∧
    runSchema cfgDefault (.type .bool) (.int 0) =
      .ok (.error (.multiple [⟨"expected bool", [], "expected bool"⟩])) ∧
    runSchema cfgDefault (.type .bool) (.str "") =
      .ok (.error (.multiple [⟨"expected bool", [], "expected bool"⟩])) ∧
    runSchema cfgDefault (.type .bool) (.bool true) = .ok (.ok (.bool true)) ∧
    compile cfgDefault (.val (.bool true)) = .error "unsupported schema data type bool" :=
  ⟨rfl, rfl, rfl, rfl, rfl⟩

/-- C7: the set schema with element schema int, applied to a set holding
the single non-int element "abc", raises exactly one error with message
"invalid value in set" at the set's own path (no per-element index); a
set with two failing elements still yields the same single aggregate
error, and a set of valid ints passes through unchanged.  Settled against
the spec-modelled set matcher validate_set (the implementing module is
absent from src/). -/
theorem c7_set_single_aggregate_error :
    validate_set [.type .int] [] (.set [.str "abc"]) =
      .error (.multiple [⟨"invalid value in set", [], "invalid value in set"⟩]) ∧
    validate_set [.type .int] [] (.set [.str "abc", Value.none]) =
      .error (.multiple [⟨"invalid value in set", [], "invalid value in set"⟩]) ∧
    validate_set [.type .int] [] (.set [.int 42, .int 43]) =
      .ok (.set [.int 42, .int 43]) :=
  ⟨rfl, rfl, rfl⟩

/-- C9: a Required key with a default that is absent from the input has
the default written into the output verbatim, without being passed
through the compiled value schema: for every key string, every default
value and every value type schema, validating the empty dict succeeds and
outputs exactly the default.  In particular the schema requiring an int
but defaulting to the string "bad" outputs "bad" without raising, even
though "bad" is not an instance of int. -/
theorem c9_default_inserted_verbatim :
    (∀ (ks : String) (d : Value) (t : PyTy),
      runSchema cfgDefault
          (.dict [(.required (.val (.str ks)) Option.none (Option.some d), .type t)])
          (.dict []) =
        .ok (.ok (.dict [(.str ks, d)]))) ∧
    runSchema cfgDefault
        (.dict [(.required (.val (.str "k")) Option.none (Option.some (.str "bad")),
                 .type .int)])
        (.dict []) = .ok (.ok (.dict [(.str "k", .str "bad")])) ∧
    isInstance (.str "bad") .int = false :=
  ⟨fun _ _ _ => rfl, rfl, rfl⟩

/-- C8 counterexample: validation is not idempotent.  The schema with
Required("k", default="bad") and value schema int validates the empty
dict to the output containing "bad" (the default is inserted verbatim,
bypassing the value schema), but validating that very output fails,
since "bad" is not an int. -/
theorem c8_idempotence_counterexample :
    runSchema cfgDefault
        (.dict [(.required (.val (.str "k")) Option.none (Option.some (.str "bad")),
                 .type .int)])
        (.dict []) = .ok (.ok (.dict [(.str "k", .str "bad")])) ∧
    runSchema cfgDefault
        (.dict [(.required (.val (.str "k")) Option.none (Option.some (.str "bad")),
                 .type .int)])
        (.dict [(.str "k", .str "bad")]) =
      .ok (.error (.multiple
        [⟨"expected int for dictionary value", [.str "k"], "expected int"⟩])) :=
  ⟨rfl, rfl⟩

/-- C1 counterexample: the sequence validator does not collect every
independently failing element.  Against the nested schema a list of lists
of int, the input with two failing elements yields a single aggregate
error for the first element only (the nested failure at path 0,0 is
deeper than the element index path, so the alternatives loop re-raises it
immediately, aborting the whole sequence before the second element is
visited).  The second conjunct shows the sibling fails independently:
validated alone, it produces the same kind of error. -/
theorem c1_nested_sequence_abort_counterexample :
    runSchema cfgDefault (.list [.list [.type .int]])
        (.list [.list [.str "a"], .list [.str "b"]]) =
      .ok (.error (.multiple
        [⟨"invalid list value", [.int 0, .int 0], "invalid list value"⟩])) ∧
    runSchema cfgDefault (.list [.list [.type .int]]) (.list [.list [.str "b"]]) =
      .ok (.error (.multiple
        [⟨"invalid list value", [.int 0, .int 0], "invalid list value"⟩])) :=
  ⟨rfl, rfl⟩

/-- C2 counterexample: against the family with 3 concrete schema keys and
the 3 matching input keys (each input key matching a distinct schema key,
in the same order), one validation run performs 6 compiled-key
invocations, exceeding the bound of one attempt per input key that direct
table lookup would give (the spec's own regression form: a per-key
evaluation counter at most N).  The matcher scans the schema-key table
linearly for every input pair. -/
theorem c2_attempts_exceed_linear_counterexample :
    attemptsOfDict cfgDefault (familyEntries 3) (familyPairs 3) = 6 ∧ 3 < 6 :=
  ⟨rfl, by decide⟩

/-- Inversion of a successful schemaFn: the construction succeeded and
the public callable is the Schema.__call__ wrapper of the compiled root. -/
theorem schemaFn_ok_inv (cfg : Cfg) (s : PySchema) (g : Value → Except Exc Value)
    (h : schemaFn cfg s = .ok g) :
    ∃ f, compile cfg s = .ok f ∧ g = schemaCallOf f := by
  unfold schemaFn at h
  rcases hc : compile cfg s with e | f <;> rw [hc] at h
  · exact Except.noConfusion h
  · exact ⟨f, rfl, (Except.ok.inj h).symm⟩

/-- Step of the Any loop on a branch that fails with a MultipleInvalid:
the error is remembered, kept only when strictly deeper than the best
error so far. -/
theorem anyGo_cons_multi (msg : Option String) (v : Value)
    (g : Value → Except Exc Value) (rest : List (Value → Except Exc Value))
    (best : Option Exc) (es : List Invalid) (h : g v = .error (.multiple es)) :
    anyGo msg v (g :: rest) best =
      anyGo msg v rest
        (Option.some
          (match best with
           | Option.none => Exc.multiple es
           | Option.some b =>
               if (Exc.path (.multiple es)).length > (Exc.path b).length
               then .multiple es else b)) := by
  conv_lhs => unfold anyGo
  rw [h]

/-- C5: best-error selection of the Any combinator.  For any two schemas
and a value failing both (each failure being the MultipleInvalid that
Schema.__call__ produces), when the two failures differ in path depth the
combinator raises the failure with the strictly longer path — regardless
of which branch was tried last. -/
theorem c5_any_deepest_error
    (sA sB : PySchema) (v : Value) (esA esB : List Invalid)
    (gA gB : Value → Except Exc Value)
    (hA : schemaFn cfgDefault sA = .ok gA)
    (hB : schemaFn cfgDefault sB = .ok gB)
    (hfA : gA v = .error (.multiple esA))
    (hfB : gB v = .error (.multiple esB))
    (hne : (Exc.path (.multiple esA)).length ≠ (Exc.path (.multiple esB)).length) :
    runAny [sA, sB] Option.none v =
      .ok (.error
        (if (Exc.path (.multiple esB)).length < (Exc.path (.multiple esA)).length
         then .multiple esA else .multiple esB)) := by
  obtain ⟨fA, hcA, hgA⟩ := schemaFn_ok_inv _ _ _ hA
  obtain ⟨fB, hcB, hgB⟩ := schemaFn_ok_inv _ _ _ hB
  have h2 : compileSchemas [sA, sB] = .ok [schemaCallOf fA, schemaCallOf fB] := by
    simp only [compileSchemas]
    rw [hcA, hcB]
    rfl
  unfold runAny
  rw [h2]
  have h3 : anyF [schemaCallOf fA, schemaCallOf fB] Option.none v =
      .error (if (Exc.path (.multiple esB)).length > (Exc.path (.multiple esA)).length
              then .multiple esB else .multiple esA) := by
    show anyGo Option.none v [schemaCallOf fA, schemaCallOf fB] Option.none = _
    rw [anyGo_cons_multi _ _ _ _ _ esA (hgA ▸ hfA),
        anyGo_cons_multi _ _ _ _ _ esB (hgB ▸ hfB)]
    rfl
  show Except.ok (anyF [schemaCallOf fA, schemaCallOf fB] Option.none v) = _
  rw [h3]
  rcases Nat.lt_or_ge (Exc.path (.multiple esA)).length (Exc.path (.multiple esB)).length with h | h
  · rw [if_pos h, if_neg (by omega)]
  · rw [if_neg (by omega), if_pos (by omega)]

/-- C5 witness: Any of a mapping schema (failing at depth 1) and the int
type schema (failing at depth 0) on a dict value failing both raises the
mapping failure, even though the int branch was tried last. -/
theorem c5_any_deepest_error_witness :
    runAny [.dict [(.plain (.val (.str "a")), .type .int)], .type .int]
        Option.none (.dict [(.str "a", .str "x")]) =
      .ok (.error (.multiple
        [⟨"expected int for dictionary value", [.str "a"], "expected int"⟩])) :=
  c5_any_deepest_error
    (.dict [(.plain (.val (.str "a")), .type .int)]) (.type .int)
    (.dict [(.str "a", .str "x")])
    [⟨"expected int for dictionary value", [.str "a"], "expected int"⟩]
    [⟨"expected int", [], "expected int"⟩]
    _ _ rfl rfl rfl rfl (by decide)

/-- Flatness of the literal-value key validator: it accepts or fails with
a single Invalid at exactly the given path. -/
theorem validate_value_flat (v : Value) :
    ∀ (p : List Value) (x : Value),
      (∃ w, validate_value v p x = .ok w) ∨
      (∃ e : Invalid, validate_value v p x = .error (.invalid e) ∧ e.path = p) := by
  intro p x
  unfold validate_value
  cases h : pyEq x v
  · exact Or.inr ⟨⟨"not a valid value", p, "not a valid value"⟩, by rw [if_neg (by simp [h])], rfl⟩
  · exact Or.inl ⟨x, by rw [if_pos (by simp [h])]⟩

/-- Flatness of the isinstance key validator. -/
theorem validate_instance_flat (t : PyTy) :
    ∀ (p : List Value) (x : Value),
      (∃ w, validate_instance t p x = .ok w) ∨
      (∃ e : Invalid, validate_instance t p x = .error (.invalid e) ∧ e.path = p) := by
  intro p x
  unfold validate_instance
  cases h : isInstance x t
  · exact Or.inr ⟨⟨"expected " ++ tyName t, p, "expected " ++ tyName t⟩,
      by rw [if_neg (by simp [h])], rfl⟩
  · exact Or.inl ⟨x, by rw [if_pos (by simp [h])]⟩

/-- A compiled entry table whose schema keys are all bare literals has
flat compiled keys: the scalar compiler turns each such key into
validate_value (or validate_instance for a type object used as a literal
key), both of which fail exactly at the given path. -/
theorem compileEntries_flat (cfg : Cfg) (entries : List (SKey × PySchema))
    (cs : List CEntry) (hc : compileEntries cfg entries = .ok cs)
    (hkeys : ∀ e ∈ entries, ∃ v, e.1 = SKey.plain (.val v)) :
    FlatKeys cs := by
  induction entries generalizing cs with
  | nil =>
      unfold compileEntries at hc
      cases hc
      intro ce hce
      exact absurd hce (List.not_mem_nil ce)
  | cons hd rest ih =>
      obtain ⟨sk, sv⟩ := hd
      obtain ⟨v, hv⟩ := hkeys (sk, sv) (List.mem_cons_self _ _)
      simp only at hv
      subst hv
      unfold compileEntries at hc
      rcases hck : compileSKey cfg (SKey.plain (.val v)) with e | ck <;> rw [hck] at hc
      · exact Except.noConfusion hc
      rcases hcv : compile cfg sv with e | cv <;> rw [hcv] at hc
      · exact Except.noConfusion hc
      rcases hcr : compileEntries cfg rest with e | crest <;> rw [hcr] at hc
      · exact Except.noConfusion hc
      replace hc : Except.ok (⟨SKey.plain (.val v), ck, cv⟩ :: crest) = Except.ok cs := hc
      cases Except.ok.inj hc
      have hflat : ∀ (p : List Value) (x : Value),
          (∃ w, ck p x = .ok w) ∨
          (∃ e : Invalid, ck p x = .error (.invalid e) ∧ e.path = p) := by
        have hck2 : compile cfg (.val v) = .ok ck := hck
        cases v <;> unfold compile at hck2 <;>
          first
          | exact Except.noConfusion hck2
          | (cases Except.ok.inj hck2
             first
             | exact validate_value_flat _
             | exact validate_instance_flat _)
      intro ce hce
      rcases List.mem_cons.mp hce with h | h
      · subst h
        exact hflat
      · exact ih crest hcr (fun e he => hkeys e (List.mem_cons_of_mem _ he)) ce h

/-- Under flat compiled keys, the candidate scan never re-raises a deep
key error: its outcome is matched, a value error, no match, or a
RuntimeError propagated from a value validator. -/
theorem scanC_flat (msg : String) (keyPath : List Value) (key value : Value)
    (out : List (Value × Value)) (cs : List CEntry) (hf : FlatKeys cs) :
    (∃ o sk, (scanC msg keyPath key value out cs).2 = .matched o sk) ∨
    (∃ es, (scanC msg keyPath key value out cs).2 = .verr es) ∨
    (scanC msg keyPath key value out cs).2 = .unmatched ∨
    (∃ m, (scanC msg keyPath key value out cs).2 = .raised (.runtime m)) := by
  induction cs with
  | nil => exact Or.inr (Or.inr (Or.inl rfl))
  | cons ce rest ih =>
      have hce := hf ce (List.mem_cons_self _ _)
      have hrest : FlatKeys rest := fun ce2 h2 => hf ce2 (List.mem_cons_of_mem _ h2)
      unfold scanC
      split
      · exact Or.inr (Or.inr (Or.inr ⟨_, rfl⟩))
      · rename_i e heq
        split
        · rename_i hgt
          rcases hce keyPath key with ⟨w, hw⟩ | ⟨e2, he2, hp⟩
          · rw [hw] at heq
            exact Except.noConfusion heq
          · rw [he2] at heq
            cases Except.error.inj heq
            rw [show Exc.path (.invalid e2) = e2.path from rfl, hp] at hgt
            omega
        · rcases ih hrest with ⟨o, sk, h⟩ | ⟨es, h⟩ | h | ⟨m, h⟩
          · exact Or.inl ⟨o, sk, h⟩
          · exact Or.inr (Or.inl ⟨es, h⟩)
          · exact Or.inr (Or.inr (Or.inl h))
          · exact Or.inr (Or.inr (Or.inr ⟨m, h⟩))
      · split
        · exact Or.inl ⟨_, _, rfl⟩
        · exact Or.inr (Or.inr (Or.inr ⟨_, rfl⟩))
        · exact Or.inr (Or.inl ⟨_, rfl⟩)

/-- Under flat compiled keys, the mapping loop either finishes (with
whatever errors it collected) or propagates a RuntimeError from a value
validator; it never aborts with an Invalid. -/
theorem mappingLoop_flat (cfg : Cfg) (msg : String) (cs : List CEntry)
    (path : List Value) (pairs : List (Value × Value))
    (out : List (Value × Value)) (errors : List Invalid) (req : List SKey)
    (hf : FlatKeys cs) :
    (∃ res, (mappingLoop cfg msg cs path pairs out errors req).2 = .ok res) ∨
    (∃ m, (mappingLoop cfg msg cs path pairs out errors req).2 = .error (.runtime m)) := by
  induction pairs generalizing out errors req with
  | nil => exact Or.inl ⟨_, rfl⟩
  | cons pr rest ih =>
      obtain ⟨k, v⟩ := pr
      unfold mappingLoop
      rcases hs : scanC msg (path ++ [k]) k v out cs with ⟨n, o⟩
      have hd := scanC_flat msg (path ++ [k]) k v out cs hf
      rw [hs] at hd
      cases o with
      | raised e =>
          rcases hd with ⟨o2, sk, h⟩ | ⟨es, h⟩ | h | ⟨m, h⟩
          · exact ScanOut.noConfusion h
          · exact ScanOut.noConfusion h
          · exact ScanOut.noConfusion h
          · cases ScanOut.raised.inj h
            exact Or.inr ⟨m, rfl⟩
      | matched out2 sk =>
          rcases ih out2 errors (eraseSKey req sk) with ⟨res, h⟩ | ⟨m, h⟩
          · exact Or.inl ⟨res, h⟩
          · exact Or.inr ⟨m, h⟩
      | verr es =>
          rcases ih out (errors ++ es) req with ⟨res, h⟩ | ⟨m, h⟩
          · exact Or.inl ⟨res, h⟩
          · exact Or.inr ⟨m, h⟩
      | unmatched =>
          cases hext : cfg.extra with
          | true =>
              rcases ih (dictSet out k v) errors req with ⟨res, h⟩ | ⟨m, h⟩
              · refine Or.inl ⟨res, ?_⟩
                simp only [hext]
                exact h
              · refine Or.inr ⟨m, ?_⟩
                simp only [hext]
                exact h
          | false =>
              rcases ih out
                  (errors ++ [⟨"extra keys not allowed", path ++ [k], "extra keys not allowed"⟩]) req
                with ⟨res, h⟩ | ⟨m, h⟩
              · refine Or.inl ⟨res, ?_⟩
                simp only [hext]
                exact h
              · refine Or.inr ⟨m, ?_⟩
                simp only [hext]
                exact h

/-- C10: every validation of an Object schema whose keys are bare literal
schema nodes, against any object that passes the class gate (or with no
target class configured), fails with a RuntimeError — regardless of how
valid or invalid the attribute values are.  The object-attribute iterator
terminates by explicitly raising StopIteration after yielding all pairs;
being a generator, under PEP 479 that raise surfaces as a RuntimeError in
the consuming mapping loop, so validation can never succeed (a nested
Object value schema can only fail earlier, with the same kind of
RuntimeError, which the except Invalid clauses never catch). -/
theorem c10_object_validation_runtime_error (cfg : Cfg)
    (entries : List (SKey × PySchema)) (cls : Option String) (cn : String)
    (attrs slots : List (String × Value))
    (hkeys : ∀ e ∈ entries, ∃ v, e.1 = SKey.plain (.val v))
    (hcls : ∀ c, cls = Option.some c → c = cn)
    (r : Except Exc Value)
    (hr : runObject cfg cls entries (.obj cn attrs slots) = .ok r) :
    ∃ m, r = .error (.runtime m) := by
  unfold runObject at hr
  rcases hce : compileEntries cfg entries with e | cs <;> rw [hce] at hr
  · exact Except.noConfusion hr
  have hf := compileEntries_flat cfg entries cs hce hkeys
  replace hr : Except.ok (wrapMulti (validate_object cfg cls cs
      (defaultRequired cfg entries) [] (.obj cn attrs slots))) = Except.ok r := hr
  cases Except.ok.inj hr
  have hmain : ∀ gate : Bool, gate = true →
      ∃ m, wrapMulti
          (if gate then
            match (mappingLoop cfg " for object value" cs []
                (((_iterate_object attrs slots).filter (fun it => !isNoneValue it.2)).map
                  (fun it => (Value.str it.1, it.2))) [] []
                (defaultRequired cfg entries)).2 with
            | .error e => .error e
            | .ok _ => .error (.runtime "generator raised StopIteration")
          else
            .error (.invalid ⟨"expected a " ++ cls.getD "", [],
              "expected a " ++ cls.getD ""⟩)) =
        .error (.runtime m) := by
    intro gate hgate
    subst hgate
    rcases mappingLoop_flat cfg " for object value" cs []
        (((_iterate_object attrs slots).filter (fun it => !isNoneValue it.2)).map
          (fun it => (Value.str it.1, it.2))) [] [] (defaultRequired cfg entries) hf
      with ⟨res, hres⟩ | ⟨m, hm⟩
    · rw [if_pos rfl, hres]
      exact ⟨"generator raised StopIteration", rfl⟩
    · rw [if_pos rfl, hm]
      exact ⟨m, rfl⟩
  cases cls with
  | none => exact hmain true rfl
  | some c =>
      have hc : c = cn := hcls c rfl
      subst hc
      exact hmain (c == c) (by simp)

/-- C10 witness: the Object schema of the _compile_object docstring,
against the documented input object, fails with a RuntimeError. -/
theorem c10_object_validation_runtime_error_witness :
    ∃ m, runObject cfgDefault (Option.some "Structure")
        [(.plain (.val (.str "one")), .val (.str "two")),
         (.plain (.val (.str "three")), .val (.str "four"))]
        (.obj "Structure" [("one", .str "three"), ("three", Value.none)] []) =
      .ok (.error (.runtime m)) := by
  obtain ⟨m, hm⟩ := c10_object_validation_runtime_error cfgDefault
    [(.plain (.val (.str "one")), .val (.str "two")),
     (.plain (.val (.str "three")), .val (.str "four"))]
    (Option.some "Structure") "Structure"
    [("one", .str "three"), ("three", Value.none)] []
    (by
      intro e he
      rcases List.mem_cons.mp he with h | h
      · exact ⟨.str "one", by rw [h]⟩
      rcases List.mem_cons.mp h with h2 | h2
      · exact ⟨.str "three", by rw [h2]⟩
      · exact absurd h2 (List.not_mem_nil e))
    (by intro c hc; cases hc; rfl)
    (.error (.runtime "generator raised StopIteration")) rfl
  refine ⟨m, ?_⟩
  rw [← hm]
  rfl

/-- Reduction of the isinstance validator on conforming data. -/
theorem validate_instance_ok (t : PyTy) (p : List Value) (x : Value)
    (h : isInstance x t = true) : validate_instance t p x = .ok x := by
  unfold validate_instance
  rw [h]
  rfl

/-- Reduction of the isinstance validator on non-conforming data. -/
theorem validate_instance_err (t : PyTy) (p : List Value) (x : Value)
    (h : isInstance x t = false) :
    validate_instance t p x =
      .error (.invalid ⟨"expected " ++ tyName t, p, "expected " ++ tyName t⟩) := by
  unfold validate_instance
  rw [h]
  rfl

/-- One element of a single-type sequence schema: the alternatives loop
accepts a conforming element unchanged and otherwise remembers the flat
type error (whose path equals the index path, so it is never re-raised). -/
theorem altLoop_single_instance (t : PyTy) (p : List Value) (x : Value) :
    altLoop p x [validate_instance t] Option.none =
      if isInstance x t then .ok x
      else .failed (Option.some
        (.invalid ⟨"expected " ++ tyName t, p, "expected " ++ tyName t⟩)) := by
  cases h : isInstance x t
  · simp [altLoop, validate_instance_err t p x h, Exc.path, h]
  · simp [altLoop, validate_instance_ok t p x h, h]

/-- Characterisation of the element loop for the single-type sequence
schema: every element is processed (no abort is possible, the type error
being flat), conforming elements are appended to the output, and each
non-conforming element contributes exactly one synthetic
invalid-list-value error at its own index path. -/
theorem seqLoop_single_instance (t : PyTy) (path : List Value) :
    ∀ (xs : List Value) (i : Nat) (out : List Value) (errors : List Invalid),
      seqLoop [validate_instance t] "list" path xs i out errors =
        .ok (out ++ xs.filter (fun x => isInstance x t),
             errors ++ (List.enumFrom i xs).filterMap
               (fun pr => if isInstance pr.2 t then Option.none
                 else Option.some (⟨"invalid list value", path ++ [.int (pr.1 : Int)],
                   "invalid list value"⟩ : Invalid))) := by
  intro xs
  induction xs with
  | nil => intro i out errors; simp [seqLoop, List.enumFrom]
  | cons x rest ih =>
      intro i out errors
      simp only [seqLoop, altLoop_single_instance]
      cases h : isInstance x t
      · simp only [h, Bool.false_eq_true, if_false]
        rw [ih]
        simp [seqElemErr, Exc.path, List.enumFrom, List.filter_cons, h,
          List.filterMap_cons]
      · simp only [h, if_true]
        rw [ih]
        simp [List.enumFrom, List.filter_cons, h, List.filterMap_cons,
          List.append_assoc]

/-- The error list of the single-type sequence loop is empty exactly when
every element conforms. -/
theorem enumFrom_errors_empty_iff (t : PyTy) (path : List Value) :
    ∀ (xs : List Value) (i : Nat),
      ((List.enumFrom i xs).filterMap
        (fun pr => if isInstance pr.2 t then Option.none
          else Option.some (⟨"invalid list value", path ++ [.int (pr.1 : Int)],
            "invalid list value"⟩ : Invalid))).isEmpty =
      xs.all (fun x => isInstance x t) := by
  intro xs
  induction xs with
  | nil => intro i; rfl
  | cons x rest ih =>
      intro i
      cases h : isInstance x t <;>
        simp [List.enumFrom, List.filterMap_cons, h, ih (i + 1)]

/-- Reduction of the literal validator on Python-equal data. -/
theorem validate_value_okr (v : Value) (p : List Value) (x : Value)
    (h : pyEq x v = true) : validate_value v p x = .ok x := by
  unfold validate_value
  rw [h]
  rfl

/-- Reduction of the literal validator on Python-unequal data. -/
theorem validate_value_errr (v : Value) (p : List Value) (x : Value)
    (h : pyEq x v = false) :
    validate_value v p x =
      .error (.invalid ⟨"not a valid value", p, "not a valid value"⟩) := by
  unfold validate_value
  rw [h]
  rfl

/-- Compilation of the linearity family: n literal int keys with int value
schemas compile to the corresponding table of literal key validators and
isinstance value validators, in order. -/
theorem compileEntries_family (cfg : Cfg) :
    ∀ js : List Nat,
      compileEntries cfg (js.map (fun (j : Nat) =>
          (SKey.plain (.val (.int (j : Int))), PySchema.type .int))) =
        .ok (js.map (fun (j : Nat) => (⟨SKey.plain (.val (.int (j : Int))),
          validate_value (.int (j : Int)), validate_instance .int⟩ : CEntry))) := by
  intro js
  induction js with
  | nil => rfl
  | cons j rest ih =>
      simp only [List.map_cons, compileEntries, compileSKey, compile, ih]
      rfl

/-- Position count of the candidate scan on the family: when the input key
is the literal k and the schema-key table is the literal keys of
pre ++ k :: post with k not occurring in pre, the scan tries one candidate
per element of pre (each failing the literal comparison, flatly) plus the
matching one, and succeeds, writing the value through. -/
theorem scanC_family_pos (msg : String) (kp : List Value)
    (out : List (Value × Value)) (k : Nat) :
    ∀ (pre post : List Nat), (∀ j ∈ pre, j ≠ k) →
      scanC msg kp (.int (k : Int)) (.int 0) out
          ((pre ++ k :: post).map (fun (j : Nat) => (⟨SKey.plain (.val (.int (j : Int))),
            validate_value (.int (j : Int)), validate_instance .int⟩ : CEntry))) =
        (pre.length + 1,
          .matched (dictSet out (.int (k : Int)) (.int 0))
            (SKey.plain (.val (.int (k : Int))))) := by
  intro pre
  induction pre with
  | nil =>
      intro post hpre
      have hk : pyEq (.int (k : Int)) (.int (k : Int)) = true := by simp [pyEq]
      simp only [List.nil_append, List.map_cons, scanC,
        validate_value_okr (.int (k : Int)) kp (.int (k : Int)) hk,
        validate_instance_ok .int kp (.int 0) rfl]
      rfl
  | cons j rest ih =>
      intro post hpre
      have hj : j ≠ k := hpre j (List.mem_cons_self _ _)
      have hne : pyEq (.int (k : Int)) (.int (j : Int)) = false := by
        simp only [pyEq, beq_eq_false_iff_ne, ne_eq, Int.natCast_inj]
        omega
      have hrest := ih post (fun a ha => hpre a (List.mem_cons_of_mem _ ha))
      simp only [List.cons_append, List.map_cons, scanC,
        validate_value_errr (.int (j : Int)) kp (.int (k : Int)) hne, List.append_eq]
      rw [if_neg (by simp [Exc.path])]
      rw [hrest]
      simp [List.length_cons, Prod.ext_iff]

/-- Attempt count of the mapping loop on the family: with the full
n-key literal table, validating the input keys ks (each below n, each
carrying a valid int value) performs, for each input key k, exactly k + 1
compiled-key invocations — the scan walks the table up to position k. -/
theorem mappingLoop_family_count (n : Nat) (msg : String) (path : List Value) :
    ∀ (ks : List Nat) (out : List (Value × Value)) (errors : List Invalid)
      (req : List SKey), (∀ k ∈ ks, k < n) →
      (mappingLoop cfgDefault msg
          ((List.range n).map (fun (j : Nat) => (⟨SKey.plain (.val (.int (j : Int))),
            validate_value (.int (j : Int)), validate_instance .int⟩ : CEntry)))
          path (ks.map (fun (k : Nat) => (Value.int (k : Int), Value.int 0)))
          out errors req).1 =
        (ks.map (fun (k : Nat) => k + 1)).sum := by
  intro ks
  induction ks with
  | nil => intro out errors req hks; rfl
  | cons k rest ih =>
      intro out errors req hks
      have hk : k < n := hks k (List.mem_cons_self _ _)
      have hdecomp : List.range n =
          List.range k ++ k :: (List.range (n - (k + 1))).map (fun x => (k + 1) + x) := by
        conv_lhs => rw [show n = (k + 1) + (n - (k + 1)) by omega]
        rw [List.range_add, List.range_succ, List.append_assoc]
        rfl
      have hscan : scanC msg (path ++ [Value.int (k : Int)]) (.int (k : Int)) (.int 0) out
          ((List.range n).map (fun (j : Nat) => (⟨SKey.plain (.val (.int (j : Int))),
            validate_value (.int (j : Int)), validate_instance .int⟩ : CEntry))) =
          ((List.range k).length + 1,
            .matched (dictSet out (.int (k : Int)) (.int 0))
              (SKey.plain (.val (.int (k : Int))))) := by
        rw [hdecomp]
        exact scanC_family_pos msg (path ++ [Value.int (k : Int)]) out k (List.range k)
          ((List.range (n - (k + 1))).map (fun x => (k + 1) + x))
          (fun j hj => Nat.ne_of_lt (List.mem_range.mp hj))
      simp only [List.map_cons, mappingLoop, hscan]
      rw [ih (dictSet out (.int (k : Int)) (.int 0)) errors
        (eraseSKey req (SKey.plain (.val (.int (k : Int)))))
        (fun a ha => hks a (List.mem_cons_of_mem _ ha))]
      simp [List.length_range]

/-- Gauss sum of the per-key attempt counts. -/
theorem family_attempts_sum :
    ∀ n : Nat, 2 * ((List.range n).map (fun (k : Nat) => k + 1)).sum = n * (n + 1) := by
  intro n
  induction n with
  | zero => rfl
  | succ n ih =>
      rw [List.range_succ, List.map_append, List.sum_append]
      simp only [List.map_cons, List.map_nil, List.sum_cons, List.sum_nil]
      calc 2 * (((List.range n).map (fun (k : Nat) => k + 1)).sum + (n + 1 + 0)) =
            2 * ((List.range n).map (fun (k : Nat) => k + 1)).sum + 2 * (n + 1) := by ring
        _ = n * (n + 1) + 2 * (n + 1) := by rw [ih]
        _ = (n + 1) * (n + 1 + 1) := by ring

/-- C2 amended: against the family with n concrete literal schema keys and
the n matching input keys in the same order, one validation run performs
exactly n(n+1)/2 compiled-key invocations (stated doubled to stay in
naturals): the matcher scans the candidate table linearly for every input
pair, so the work is quadratic in n, not linear. -/
theorem c2_key_match_attempts_quadratic :
    ∀ n : Nat, 2 * attemptsOfDict cfgDefault (familyEntries n) (familyPairs n) =
      n * (n + 1) := by
  intro n
  unfold attemptsOfDict familyEntries familyPairs
  rw [compileEntries_family]
  show 2 * (mappingLoop cfgDefault " for dictionary value" _ [] _ [] []
      (defaultRequired cfgDefault _)).1 = _
  rw [mappingLoop_family_count n " for dictionary value" []
    (List.range n) [] [] (defaultRequired cfgDefault ((List.range n).map (fun (j : Nat) =>
      (SKey.plain (.val (.int (j : Int))), PySchema.type .int))))
    (fun k hk => List.mem_range.mp hk)]
  exact family_attempts_sum n

/-- Python equality is symmetric when the left operand is a hashable
scalar (the only case dict-key comparisons need). -/
theorem pyEq_symm_hashable (a b : Value) (ha : hashableKey a = true) :
    pyEq a b = pyEq b a := by
  cases a <;> cases b <;> simp_all [pyEq, hashableKey, eq_comm]

/-- Spelling out keyNotIn as a universally quantified freshness fact. -/
theorem keyNotIn_eq_true (k : Value) :
    ∀ l : List (Value × Value),
      keyNotIn k l = true ↔ ∀ p ∈ l, pyEq k p.1 = false := by
  intro l
  induction l with
  | nil => simp [keyNotIn]
  | cons p rest ih =>
      obtain ⟨k₂, v₂⟩ := p
      simp [keyNotIn, ih, Bool.not_eq_true']

/-- Freshness over an extended output dict. -/
theorem keyNotIn_append (k : Value) (l₁ l₂ : List (Value × Value)) :
    keyNotIn k (l₁ ++ l₂) = (keyNotIn k l₁ && keyNotIn k l₂) := by
  induction l₁ with
  | nil => simp [keyNotIn]
  | cons p rest ih =>
      obtain ⟨k₂, v₂⟩ := p
      simp [keyNotIn, ih, Bool.and_assoc]

/-- Writing a fresh key into an insertion-ordered dict appends the pair. -/
theorem dictSet_fresh (k v : Value) :
    ∀ out : List (Value × Value), keyNotIn k out = true →
      dictSet out k v = out ++ [(k, v)] := by
  intro out
  induction out with
  | nil => intro h; rfl
  | cons p rest ih =>
      obtain ⟨k₂, v₂⟩ := p
      intro h
      simp [keyNotIn, Bool.not_eq_true'] at h
      simp [dictSet, h.1, ih h.2]

/-- Decorated error lists are empty exactly when the source list is. -/
theorem decorateErrors_eq_nil (msg : String) (kp : List Value) :
    ∀ es : List Invalid, decorateErrors msg kp es = [] ↔ es = [] := by
  intro es
  cases es <;> simp [decorateErrors]

/-- Inversion of the Schema.__call__ wrapper on success. -/
theorem wrapMulti_ok (r : Except Exc Value) (w : Value)
    (h : wrapMulti r = .ok w) : r = .ok w := by
  cases r with
  | ok a => exact h
  | error e => cases e <;> exact Except.noConfusion h

/-- Discarding keeps only elements of the original required set. -/
theorem eraseSKey_subset (sk : SKey) :
    ∀ (l : List SKey) (x : SKey), x ∈ eraseSKey l sk → x ∈ l := by
  intro l
  induction l with
  | nil => intro x h; exact absurd h (List.not_mem_nil x)
  | cons k rest ih =>
      intro x h
      unfold eraseSKey at h
      by_cases hb : skeyBeq k sk = true
      · rw [if_pos hb] at h
        exact List.mem_cons_of_mem _ h
      · rw [if_neg hb] at h
        rcases List.mem_cons.mp h with h2 | h2
        · exact h2 ▸ List.mem_cons_self _ _
        · exact List.mem_cons_of_mem _ (ih x h2)

/-- Inversion of the literal validator on success: the data is returned
unchanged. -/
theorem validate_value_ok_inv (v : Value) (p : List Value) (x y : Value)
    (h : validate_value v p x = .ok y) : y = x := by
  unfold validate_value at h
  by_cases hq : pyEq x v = true
  · rw [if_pos hq] at h
    exact (Except.ok.inj h).symm
  · rw [if_neg hq] at h
    exact Except.noConfusion h

/-- Inversion of the isinstance validator on success. -/
theorem validate_instance_ok_inv (t : PyTy) (p : List Value) (x y : Value)
    (h : validate_instance t p x = .ok y) : y = x := by
  unfold validate_instance at h
  by_cases hq : isInstance x t = true
  · rw [if_pos hq] at h
    exact (Except.ok.inj h).symm
  · rw [if_neg hq] at h
    exact Except.noConfusion h

/-- Membership form of the pure check on alternative lists. -/
theorem pureSchemas_mem :
    ∀ l : List PySchema, pureSchemas l = true → ∀ s ∈ l, pureSchema s = true := by
  intro l
  induction l with
  | nil => intro _ s h; exact absurd h (List.not_mem_nil s)
  | cons a rest ih =>
      intro hp s hs
      unfold pureSchemas at hp
      simp only [Bool.and_eq_true] at hp
      rcases List.mem_cons.mp hs with h | h
      · exact h ▸ hp.1
      · exact ih hp.2 s h

/-- Membership form of the pure check on entry lists. -/
theorem pureEntries_mem :
    ∀ l : List (SKey × PySchema), pureEntries l = true →
      ∀ e ∈ l, pureKey e.1 = true ∧ pureSchema e.2 = true := by
  intro l
  induction l with
  | nil => intro _ e h; exact absurd h (List.not_mem_nil e)
  | cons a rest ih =>
      obtain ⟨k, v⟩ := a
      intro hp e he
      unfold pureEntries at hp
      simp only [Bool.and_eq_true] at hp
      obtain ⟨⟨h1, h2⟩, h3⟩ := hp
      rcases List.mem_cons.mp he with h | h
      · subst h
        exact ⟨h1, h2⟩
      · exact ih h3 e h

/-- Membership form of the well-formedness of pair lists. -/
theorem wfPairs_mem :
    ∀ l : List (Value × Value), wfPairs l = true →
      ∀ p ∈ l, hashableKey p.1 = true ∧ wfValue p.1 = true ∧ wfValue p.2 = true := by
  intro l
  induction l with
  | nil => intro _ p h; exact absurd h (List.not_mem_nil p)
  | cons a rest ih =>
      obtain ⟨k, v⟩ := a
      intro hp p hm
      unfold wfPairs at hp
      simp only [Bool.and_eq_true] at hp
      obtain ⟨⟨⟨⟨h1, h2⟩, h3⟩, h4⟩, h5⟩ := hp
      rcases List.mem_cons.mp hm with h | h
      · subst h
        exact ⟨h1, h3, h4⟩
      · exact ih h5 p h

/-- Schemas always have positive size. -/
theorem pySchema_sizeOf_pos (s : PySchema) : 0 < sizeOf s := by
  cases s <;> simp

/-- Membership form of the well-formedness of value lists. -/
theorem wfValues_mem :
    ∀ l : List Value, wfValues l = true → ∀ x ∈ l, wfValue x = true := by
  intro l
  induction l with
  | nil => intro _ x h; exact absurd h (List.not_mem_nil x)
  | cons a rest ih =>
      intro hw x hx
      unfold wfValues at hw
      simp only [Bool.and_eq_true] at hw
      rcases List.mem_cons.mp hx with h | h
      · exact h ▸ hw.1
      · exact ih hw.2 x h

/-- Unfolding of wfPairs on a cons, projected into its five conjuncts. -/
theorem wfPairs_cons (k v : Value) (rest : List (Value × Value))
    (h : wfPairs ((k, v) :: rest) = true) :
    hashableKey k = true ∧ keyNotIn k rest = true ∧ wfValue k = true ∧
      wfValue v = true ∧ wfPairs rest = true := by
  unfold wfPairs at h
  simp only [Bool.and_eq_true] at h
  obtain ⟨⟨⟨⟨h1, h2⟩, h3⟩, h4⟩, h5⟩ := h
  exact ⟨h1, h2, h3, h4, h5⟩

/-- Inversion of the alternatives loop on success: some compiled
alternative accepted the element and produced the output. -/
theorem altLoop_ok_inv (ip : List Value) (v : Value) :
    ∀ (cs : List Validator) (inv : Option Exc) (o : Value),
      altLoop ip v cs inv = .ok o → ∃ c ∈ cs, c ip v = .ok o := by
  intro cs
  induction cs with
  | nil =>
      intro inv o h
      unfold altLoop at h
      exact SeqAltOut.noConfusion h
  | cons c rest ih =>
      intro inv o h
      unfold altLoop at h
      cases hg : c ip v with
      | ok o₂ =>
          rw [hg] at h
          have ho := SeqAltOut.ok.inj h
          exact ⟨c, List.mem_cons_self _ _, ho ▸ hg⟩
      | error e₂ =>
          rw [hg] at h
          cases e₂ with
          | runtime m => exact SeqAltOut.noConfusion h
          | invalid e₃ =>
              have h2 : (if (Exc.path (Exc.invalid e₃)).length > ip.length
                  then SeqAltOut.raised (Exc.invalid e₃)
                  else altLoop ip v rest (Option.some (Exc.invalid e₃))) = SeqAltOut.ok o := h
              by_cases hd : (Exc.path (Exc.invalid e₃)).length > ip.length
              · rw [if_pos hd] at h2
                exact SeqAltOut.noConfusion h2
              · rw [if_neg hd] at h2
                obtain ⟨c₂, hc₂, hcall⟩ := ih _ o h2
                exact ⟨c₂, List.mem_cons_of_mem _ hc₂, hcall⟩
          | multiple es =>
              have h2 : (if (Exc.path (Exc.multiple es)).length > ip.length
                  then SeqAltOut.raised (Exc.multiple es)
                  else altLoop ip v rest (Option.some (Exc.multiple es))) = SeqAltOut.ok o := h
              by_cases hd : (Exc.path (Exc.multiple es)).length > ip.length
              · rw [if_pos hd] at h2
                exact SeqAltOut.noConfusion h2
              · rw [if_neg hd] at h2
                obtain ⟨c₂, hc₂, hcall⟩ := ih _ o h2
                exact ⟨c₂, List.mem_cons_of_mem _ hc₂, hcall⟩

/-- Inversion of the alternatives loop on an immediate re-raise: the
exception came out of some compiled alternative at the index path. -/
theorem altLoop_raised_inv (ip : List Value) (v : Value) :
    ∀ (cs : List Validator) (inv : Option Exc) (e : Exc),
      altLoop ip v cs inv = .raised e → ∃ c ∈ cs, c ip v = .error e := by
  intro cs
  induction cs with
  | nil =>
      intro inv e h
      unfold altLoop at h
      exact SeqAltOut.noConfusion h
  | cons c rest ih =>
      intro inv e h
      unfold altLoop at h
      cases hg : c ip v with
      | ok o₂ =>
          rw [hg] at h
          exact SeqAltOut.noConfusion h
      | error e₂ =>
          rw [hg] at h
          cases e₂ with
          | runtime m =>
              have he := SeqAltOut.raised.inj h
              exact ⟨c, List.mem_cons_self _ _, he ▸ hg⟩
          | invalid e₃ =>
              have h2 : (if (Exc.path (Exc.invalid e₃)).length > ip.length
                  then SeqAltOut.raised (Exc.invalid e₃)
                  else altLoop ip v rest (Option.some (Exc.invalid e₃))) = SeqAltOut.raised e := h
              by_cases hd : (Exc.path (Exc.invalid e₃)).length > ip.length
              · rw [if_pos hd] at h2
                have he := SeqAltOut.raised.inj h2
                exact ⟨c, List.mem_cons_self _ _, he ▸ hg⟩
              · rw [if_neg hd] at h2
                obtain ⟨c₂, hc₂, hcall⟩ := ih _ e h2
                exact ⟨c₂, List.mem_cons_of_mem _ hc₂, hcall⟩
          | multiple es =>
              have h2 : (if (Exc.path (Exc.multiple es)).length > ip.length
                  then SeqAltOut.raised (Exc.multiple es)
                  else altLoop ip v rest (Option.some (Exc.multiple es))) = SeqAltOut.raised e := h
              by_cases hd : (Exc.path (Exc.multiple es)).length > ip.length
              · rw [if_pos hd] at h2
                have he := SeqAltOut.raised.inj h2
                exact ⟨c, List.mem_cons_self _ _, he ▸ hg⟩
              · rw [if_neg hd] at h2
                obtain ⟨c₂, hc₂, hcall⟩ := ih _ e h2
                exact ⟨c₂, List.mem_cons_of_mem _ hc₂, hcall⟩

/-- The error list of the element loop only grows: on success the final
error list extends the one the loop started from. -/
theorem seqLoop_errors_mono (cs : List Validator) (tn : String) (path : List Value) :
    ∀ (xs : List Value) (i : Nat) (out : List Value) (errors : List Invalid)
      (o : List Value) (e : List Invalid),
      seqLoop cs tn path xs i out errors = .ok (o, e) → ∃ tl, e = errors ++ tl := by
  intro xs
  induction xs with
  | nil =>
      intro i out errors o e h
      unfold seqLoop at h
      have h2 := Except.ok.inj h
      injection h2 with ho he
      exact ⟨[], by rw [← he, List.append_nil]⟩
  | cons v rest ih =>
      intro i out errors o e h
      unfold seqLoop at h
      split at h
      next o₂ heq => exact ih _ _ _ _ _ h
      next e₂ heq => exact Except.noConfusion h
      next inv heq =>
        obtain ⟨tl, htl⟩ := ih _ _ _ _ _ h
        exact ⟨seqElemErr tn (path ++ [.int (i : Int)]) inv :: tl, by
          rw [htl, List.append_assoc]; rfl⟩

/-- Inversion of an aborted element loop: the re-raised exception came out
of some compiled alternative at some path and value. -/
theorem seqLoop_error_inv (cs : List Validator) (tn : String) (path : List Value) :
    ∀ (xs : List Value) (i : Nat) (out : List Value) (errors : List Invalid)
      (e : Exc),
      seqLoop cs tn path xs i out errors = .error e →
      ∃ c ∈ cs, ∃ (p : List Value) (v : Value), c p v = .error e := by
  intro xs
  induction xs with
  | nil =>
      intro i out errors e h
      unfold seqLoop at h
      exact Except.noConfusion h
  | cons v rest ih =>
      intro i out errors e h
      unfold seqLoop at h
      split at h
      next o₂ heq => exact ih _ _ _ _ h
      next e₂ heq =>
        have he := Except.error.inj h
        obtain ⟨c, hc, hcall⟩ := altLoop_raised_inv _ v cs _ e₂ heq
        exact ⟨c, hc, path ++ [.int (i : Int)], v, he ▸ hcall⟩
      next inv heq => exact ih _ _ _ _ h

/-- Identity of the element loop: when every alternative is the identity
on well-formed data and the loop finishes with no collected error, the
output is the input appended to the accumulator. -/
theorem seqLoop_id (cs : List Validator) (tn : String) (path : List Value)
    (hid : ∀ c ∈ cs, IdOnWf c) :
    ∀ (xs : List Value) (i : Nat) (out : List Value) (errors : List Invalid)
      (o : List Value) (e : List Invalid),
      wfValues xs = true →
      seqLoop cs tn path xs i out errors = .ok (o, e) → e = [] →
      o = out ++ xs := by
  intro xs
  induction xs with
  | nil =>
      intro i out errors o e _ h _
      unfold seqLoop at h
      have h2 := Except.ok.inj h
      injection h2 with ho he
      rw [← ho, List.append_nil]
  | cons v rest ih =>
      intro i out errors o e hwf h he
      unfold wfValues at hwf
      simp only [Bool.and_eq_true] at hwf
      unfold seqLoop at h
      split at h
      next o₂ heq =>
        obtain ⟨c, hc, hcall⟩ := altLoop_ok_inv _ v cs _ o₂ heq
        have ho₂ : o₂ = v := hid c hc _ v o₂ hwf.1 hcall
        subst ho₂
        have := ih _ _ _ _ _ hwf.2 h he
        rw [this, List.append_assoc]
        rfl
      next e₂ heq => exact Except.noConfusion h
      next inv heq =>
        obtain ⟨tl, htl⟩ := seqLoop_errors_mono cs tn path rest _ _ _ _ _ h
        rw [he] at htl
        exact absurd htl.symm (by simp)

/-- The compiled sequence validator is the identity on well-formed data
and never raises an empty aggregate, provided its alternatives are. -/
theorem validate_sequence_pure (cs : List Validator) (se : Bool) (tn : String)
    (hid : ∀ c ∈ cs, IdOnWf c) (hne : ∀ c ∈ cs, NoEmptyMulti c) :
    IdOnWf (validate_sequence cs se tn) ∧ NoEmptyMulti (validate_sequence cs se tn) := by
  constructor
  · intro p x y hwf h
    unfold validate_sequence at h
    cases x with
    | list xs =>
        by_cases hse : se = true
        · rw [hse] at h
          simp only [if_true] at h
          exact (Except.ok.inj h).symm
        · rw [Bool.not_eq_true] at hse
          rw [hse] at h
          simp only [Bool.false_eq_true, if_false] at h
          split at h
          next e heq => exact Except.noConfusion h
          next out errors heq =>
            split at h
            next hemp =>
              have hout : out = [] ++ xs := by
                have hwfl : wfValues xs = true := by
                  unfold wfValue at hwf; exact hwf
                exact seqLoop_id cs tn p hid xs 0 [] [] out errors hwfl heq
                  (List.isEmpty_iff.mp hemp)
              rw [List.nil_append] at hout
              rw [← Except.ok.inj h, hout]
            next hemp => exact Except.noConfusion h
    | int n => exact Except.noConfusion h
    | str st => exact Except.noConfusion h
    | bool b => exact Except.noConfusion h
    | none => exact Except.noConfusion h
    | pytype t => exact Except.noConfusion h
    | dict ps => exact Except.noConfusion h
    | set ss => exact Except.noConfusion h
    | obj cn at_ sl => exact Except.noConfusion h
  · intro p x es h
    unfold validate_sequence at h
    cases x with
    | list xs =>
        by_cases hse : se = true
        · rw [hse] at h
          simp only [if_true] at h
          exact Except.noConfusion h
        · rw [Bool.not_eq_true] at hse
          rw [hse] at h
          simp only [Bool.false_eq_true, if_false] at h
          split at h
          next e heq =>
            have he := Except.error.inj h
            obtain ⟨c, hc, p₂, v₂, hcall⟩ := seqLoop_error_inv cs tn p xs 0 [] [] e heq
            exact hne c hc p₂ v₂ es (he ▸ hcall)
          next out errors heq =>
            split at h
            next hemp => exact Except.noConfusion h
            next hemp =>
              have he := Exc.multiple.inj (Except.error.inj h)
              intro hnil
              rw [he, hnil] at hemp
              exact hemp rfl
    | int n => exact absurd (Except.error.inj h) (by intro hh; exact Exc.noConfusion hh)
    | str st => exact absurd (Except.error.inj h) (by intro hh; exact Exc.noConfusion hh)
    | bool b => exact absurd (Except.error.inj h) (by intro hh; exact Exc.noConfusion hh)
    | none => exact absurd (Except.error.inj h) (by intro hh; exact Exc.noConfusion hh)
    | pytype t => exact absurd (Except.error.inj h) (by intro hh; exact Exc.noConfusion hh)
    | dict ps => exact absurd (Except.error.inj h) (by intro hh; exact Exc.noConfusion hh)
    | set ss => exact absurd (Except.error.inj h) (by intro hh; exact Exc.noConfusion hh)
    | obj cn at_ sl => exact absurd (Except.error.inj h) (by intro hh; exact Exc.noConfusion hh)

/-- Inversion of the literal validator on failure: the error is the single
not-a-valid-value Invalid at the call path. -/
theorem validate_value_error_inv (v : Value) (p : List Value) (x : Value) (e : Exc)
    (h : validate_value v p x = .error e) :
    e = .invalid ⟨"not a valid value", p, "not a valid value"⟩ := by
  unfold validate_value at h
  by_cases hq : pyEq x v = true
  · rw [if_pos hq] at h
    exact Except.noConfusion h
  · rw [if_neg hq] at h
    exact (Except.error.inj h).symm

/-- Every compiled alternative of a sequence schema comes from compiling
one of its alternative nodes. -/
theorem compileList_mem (cfg : Cfg) :
    ∀ (alts : List PySchema) (cs : List Validator),
      compileList cfg alts = .ok cs → ∀ c ∈ cs, ∃ a ∈ alts, compile cfg a = .ok c := by
  intro alts
  induction alts with
  | nil =>
      intro cs h c hc
      unfold compileList at h
      rw [← Except.ok.inj h] at hc
      exact absurd hc (List.not_mem_nil c)
  | cons a rest ih =>
      intro cs h c hc
      unfold compileList at h
      cases hca : compile cfg a with
      | error m =>
          rw [hca] at h
          exact Except.noConfusion h
      | ok c₁ =>
          rw [hca] at h
          cases hcr : compileList cfg rest with
          | error m =>
              rw [hcr] at h
              exact Except.noConfusion h
          | ok cs₁ =>
              rw [hcr] at h
              rw [← Except.ok.inj h] at hc
              rcases List.mem_cons.mp hc with h1 | h1
              · exact ⟨a, List.mem_cons_self _ _, by rw [hca, h1]⟩
              · obtain ⟨a₂, ha₂, hcc⟩ := ih cs₁ hcr c h1
                exact ⟨a₂, List.mem_cons_of_mem _ ha₂, hcc⟩

/-- Every entry of the compiled schema table comes from compiling one
(key, value) entry of the mapping schema. -/
theorem compileEntries_mem (cfg : Cfg) :
    ∀ (entries : List (SKey × PySchema)) (cs : List CEntry),
      compileEntries cfg entries = .ok cs →
      ∀ ce ∈ cs, ∃ sk sv, (sk, sv) ∈ entries ∧ ce.skey = sk ∧
        compileSKey cfg sk = .ok ce.ckey ∧ compile cfg sv = .ok ce.cvalue := by
  intro entries
  induction entries with
  | nil =>
      intro cs h ce hce
      unfold compileEntries at h
      rw [← Except.ok.inj h] at hce
      exact absurd hce (List.not_mem_nil ce)
  | cons p rest ih =>
      obtain ⟨sk, sv⟩ := p
      intro cs h ce hce
      unfold compileEntries at h
      cases hck : compileSKey cfg sk with
      | error m =>
          rw [hck] at h
          exact Except.noConfusion h
      | ok ck =>
          rw [hck] at h
          cases hcv : compile cfg sv with
          | error m =>
              rw [hcv] at h
              exact Except.noConfusion h
          | ok cv =>
              rw [hcv] at h
              cases hcr : compileEntries cfg rest with
              | error m =>
                  rw [hcr] at h
                  exact Except.noConfusion h
              | ok cs₁ =>
                  rw [hcr] at h
                  rw [← Except.ok.inj h] at hce
                  rcases List.mem_cons.mp hce with h1 | h1
                  · refine ⟨sk, sv, List.mem_cons_self _ _, ?_, ?_, ?_⟩
                    · rw [h1]
                    · rw [h1]
                      exact hck
                    · rw [h1]
                      exact hcv
                  · obtain ⟨sk₂, sv₂, hmem, hsk, hck₂, hcv₂⟩ := ih cs₁ hcr ce h1
                    exact ⟨sk₂, sv₂, List.mem_cons_of_mem _ hmem, hsk, hck₂, hcv₂⟩

/-- A bare scalar-literal key compiles to the literal validator. -/
theorem pureKey_compileSKey (cfg : Cfg) (sk : SKey) (hp : pureKey sk = true) :
    ∀ ck, compileSKey cfg sk = .ok ck → ∃ kv, ck = validate_value kv := by
  cases sk with
  | plain s =>
      cases s with
      | val v =>
          cases v with
          | int i => intro ck h; exact ⟨.int i, (Except.ok.inj h).symm⟩
          | str st => intro ck h; exact ⟨.str st, (Except.ok.inj h).symm⟩
          | none => intro ck h; exact ⟨.none, (Except.ok.inj h).symm⟩
          | bool b => intro ck h; exact Bool.noConfusion hp
          | pytype t => intro ck h; exact Bool.noConfusion hp
          | list l => intro ck h; exact Bool.noConfusion hp
          | dict d => intro ck h; exact Bool.noConfusion hp
          | set l => intro ck h; exact Bool.noConfusion hp
          | obj cn a sl => intro ck h; exact Bool.noConfusion hp
      | extra => intro ck h; exact Bool.noConfusion hp
      | type t => intro ck h; exact Bool.noConfusion hp
      | dict entries => intro ck h; exact Bool.noConfusion hp
      | object cls entries => intro ck h; exact Bool.noConfusion hp
      | list alts => intro ck h; exact Bool.noConfusion hp
      | set alts => intro ck h; exact Bool.noConfusion hp
      | anyOf alts m => intro ck h; exact Bool.noConfusion hp
  | required s m d => intro ck h; exact Bool.noConfusion hp
  | optional s m => intro ck h; exact Bool.noConfusion hp

/-- Bare scalar-literal keys carry no default. -/
theorem pureKey_defaultOf (sk : SKey) (hp : pureKey sk = true) :
    SKey.defaultOf sk = Option.none := by
  cases sk with
  | plain s => rfl
  | required s m d => exact Bool.noConfusion hp
  | optional s m => rfl

/-- Every key the mapping treats as required is a key of the schema. -/
theorem defaultRequired_mem (cfg : Cfg) (entries : List (SKey × PySchema)) :
    ∀ k ∈ defaultRequired cfg entries, k ∈ entries.map Prod.fst := by
  intro k hk
  unfold defaultRequired at hk
  exact List.mem_of_mem_filter hk

/-- Inversion of a matched candidate scan: some table entry accepted both
the key and the value, and the output was updated with the pair the two
validators returned. -/
theorem scanC_matched_inv (msg : String) (kp : List Value) (key value : Value)
    (out : List (Value × Value)) :
    ∀ (cs : List CEntry) (out₂ : List (Value × Value)) (sk : SKey),
      (scanC msg kp key value out cs).2 = .matched out₂ sk →
      ∃ ce ∈ cs, ∃ nk vv, ce.ckey kp key = .ok nk ∧ ce.cvalue kp value = .ok vv ∧
        out₂ = dictSet out nk vv ∧ sk = ce.skey := by
  intro cs
  induction cs with
  | nil =>
      intro out₂ sk h
      exact ScanOut.noConfusion h
  | cons ce rest ih =>
      intro out₂ sk h
      unfold scanC at h
      cases hck : ce.ckey kp key with
      | error e =>
          rw [hck] at h
          cases e with
          | runtime m => exact ScanOut.noConfusion h
          | invalid e₃ =>
              have h2 : (if (Exc.path (Exc.invalid e₃)).length > kp.length
                  then ((1 : Nat), ScanOut.raised (Exc.invalid e₃))
                  else ((scanC msg kp key value out rest).1 + 1,
                        (scanC msg kp key value out rest).2)).2 = ScanOut.matched out₂ sk := h
              by_cases hd : (Exc.path (Exc.invalid e₃)).length > kp.length
              · rw [if_pos hd] at h2
                exact ScanOut.noConfusion h2
              · rw [if_neg hd] at h2
                obtain ⟨ce₂, hce₂, rest₂⟩ := ih out₂ sk h2
                exact ⟨ce₂, List.mem_cons_of_mem _ hce₂, rest₂⟩
          | multiple es =>
              have h2 : (if (Exc.path (Exc.multiple es)).length > kp.length
                  then ((1 : Nat), ScanOut.raised (Exc.multiple es))
                  else ((scanC msg kp key value out rest).1 + 1,
                        (scanC msg kp key value out rest).2)).2 = ScanOut.matched out₂ sk := h
              by_cases hd : (Exc.path (Exc.multiple es)).length > kp.length
              · rw [if_pos hd] at h2
                exact ScanOut.noConfusion h2
              · rw [if_neg hd] at h2
                obtain ⟨ce₂, hce₂, rest₂⟩ := ih out₂ sk h2
                exact ⟨ce₂, List.mem_cons_of_mem _ hce₂, rest₂⟩
      | ok nk =>
          rw [hck] at h
          cases hcv : ce.cvalue kp value with
          | ok vv =>
              rw [hcv] at h
              have h2 := ScanOut.matched.inj h
              exact ⟨ce, List.mem_cons_self _ _, nk, vv, hck, hcv, h2.1.symm, h2.2.symm⟩
          | error e =>
              rw [hcv] at h
              cases e with
              | runtime m => exact ScanOut.noConfusion h
              | invalid e₃ => exact ScanOut.noConfusion h
              | multiple es => exact ScanOut.noConfusion h

/-- Inversion of a value-error candidate scan: some table entry accepted
the key, its value validator failed with a non-RuntimeError exception, and
the collected errors are its decorated error list. -/
theorem scanC_verr_inv (msg : String) (kp : List Value) (key value : Value)
    (out : List (Value × Value)) :
    ∀ (cs : List CEntry) (es : List Invalid),
      (scanC msg kp key value out cs).2 = .verr es →
      ∃ ce ∈ cs, ∃ e, ce.cvalue kp value = .error e ∧
        (∀ m, e ≠ Exc.runtime m) ∧ es = decorateErrors msg kp (Exc.errorsOf e) := by
  intro cs
  induction cs with
  | nil =>
      intro es h
      exact ScanOut.noConfusion h
  | cons ce rest ih =>
      intro es h
      unfold scanC at h
      cases hck : ce.ckey kp key with
      | error e =>
          rw [hck] at h
          cases e with
          | runtime m => exact ScanOut.noConfusion h
          | invalid e₃ =>
              have h2 : (if (Exc.path (Exc.invalid e₃)).length > kp.length
                  then ((1 : Nat), ScanOut.raised (Exc.invalid e₃))
                  else ((scanC msg kp key value out rest).1 + 1,
                        (scanC msg kp key value out rest).2)).2 = ScanOut.verr es := h
              by_cases hd : (Exc.path (Exc.invalid e₃)).length > kp.length
              · rw [if_pos hd] at h2
                exact ScanOut.noConfusion h2
              · rw [if_neg hd] at h2
                obtain ⟨ce₂, hce₂, rest₂⟩ := ih es h2
                exact ⟨ce₂, List.mem_cons_of_mem _ hce₂, rest₂⟩
          | multiple mes =>
              have h2 : (if (Exc.path (Exc.multiple mes)).length > kp.length
                  then ((1 : Nat), ScanOut.raised (Exc.multiple mes))
                  else ((scanC msg kp key value out rest).1 + 1,
                        (scanC msg kp key value out rest).2)).2 = ScanOut.verr es := h
              by_cases hd : (Exc.path (Exc.multiple mes)).length > kp.length
              · rw [if_pos hd] at h2
                exact ScanOut.noConfusion h2
              · rw [if_neg hd] at h2
                obtain ⟨ce₂, hce₂, rest₂⟩ := ih es h2
                exact ⟨ce₂, List.mem_cons_of_mem _ hce₂, rest₂⟩
      | ok nk =>
          rw [hck] at h
          cases hcv : ce.cvalue kp value with
          | ok vv =>
              rw [hcv] at h
              exact ScanOut.noConfusion h
          | error e =>
              rw [hcv] at h
              cases e with
              | runtime m => exact ScanOut.noConfusion h
              | invalid e₃ =>
                  have h2 := ScanOut.verr.inj h
                  exact ⟨ce, List.mem_cons_self _ _, .invalid e₃, hcv,
                    fun m hm => Exc.noConfusion hm, h2.symm⟩
              | multiple mes =>
                  have h2 := ScanOut.verr.inj h
                  exact ⟨ce, List.mem_cons_self _ _, .multiple mes, hcv,
                    fun m hm => Exc.noConfusion hm, h2.symm⟩

/-- Inversion of an aborting candidate scan: the re-raised exception came
out of a key or value validator of some table entry. -/
theorem scanC_raised_inv (msg : String) (kp : List Value) (key value : Value)
    (out : List (Value × Value)) :
    ∀ (cs : List CEntry) (e : Exc),
      (scanC msg kp key value out cs).2 = .raised e →
      ∃ ce ∈ cs, ce.ckey kp key = .error e ∨ ce.cvalue kp value = .error e := by
  intro cs
  induction cs with
  | nil =>
      intro e h
      exact ScanOut.noConfusion h
  | cons ce rest ih =>
      intro e h
      unfold scanC at h
      cases hck : ce.ckey kp key with
      | error e₂ =>
          rw [hck] at h
          cases e₂ with
          | runtime m =>
              have h2 := ScanOut.raised.inj h
              exact ⟨ce, List.mem_cons_self _ _, Or.inl (h2 ▸ hck)⟩
          | invalid e₃ =>
              have h2 : (if (Exc.path (Exc.invalid e₃)).length > kp.length
                  then ((1 : Nat), ScanOut.raised (Exc.invalid e₃))
                  else ((scanC msg kp key value out rest).1 + 1,
                        (scanC msg kp key value out rest).2)).2 = ScanOut.raised e := h
              by_cases hd : (Exc.path (Exc.invalid e₃)).length > kp.length
              · rw [if_pos hd] at h2
                have h3 := ScanOut.raised.inj h2
                exact ⟨ce, List.mem_cons_self _ _, Or.inl (h3 ▸ hck)⟩
              · rw [if_neg hd] at h2
                obtain ⟨ce₂, hce₂, rest₂⟩ := ih e h2
                exact ⟨ce₂, List.mem_cons_of_mem _ hce₂, rest₂⟩
          | multiple mes =>
              have h2 : (if (Exc.path (Exc.multiple mes)).length > kp.length
                  then ((1 : Nat), ScanOut.raised (Exc.multiple mes))
                  else ((scanC msg kp key value out rest).1 + 1,
                        (scanC msg kp key value out rest).2)).2 = ScanOut.raised e := h
              by_cases hd : (Exc.path (Exc.multiple mes)).length > kp.length
              · rw [if_pos hd] at h2
                have h3 := ScanOut.raised.inj h2
                exact ⟨ce, List.mem_cons_self _ _, Or.inl (h3 ▸ hck)⟩
              · rw [if_neg hd] at h2
                obtain ⟨ce₂, hce₂, rest₂⟩ := ih e h2
                exact ⟨ce₂, List.mem_cons_of_mem _ hce₂, rest₂⟩
      | ok nk =>
          rw [hck] at h
          cases hcv : ce.cvalue kp value with
          | ok vv =>
              rw [hcv] at h
              exact ScanOut.noConfusion h
          | error e₂ =>
              rw [hcv] at h
              cases e₂ with
              | runtime m =>
                  have h2 := ScanOut.raised.inj h
                  exact ⟨ce, List.mem_cons_self _ _, Or.inr (h2 ▸ hcv)⟩
              | invalid e₃ => exact ScanOut.noConfusion h
              | multiple mes => exact ScanOut.noConfusion h

/-- The error list of the mapping loop only grows: on success the final
error list extends the one the loop started from. -/
theorem mappingLoop_errors_mono (cfg : Cfg) (msg : String) (cs : List CEntry)
    (path : List Value) :
    ∀ (pairs out : List (Value × Value)) (errors : List Invalid) (req : List SKey)
      (o : List (Value × Value)) (e : List Invalid) (r : List SKey),
      (mappingLoop cfg msg cs path pairs out errors req).2 = .ok (o, e, r) →
      ∃ tl, e = errors ++ tl := by
  intro pairs
  induction pairs with
  | nil =>
      intro out errors req o e r h
      unfold mappingLoop at h
      have h2 := Except.ok.inj h
      injection h2 with h3 h4
      injection h4 with h5 h6
      exact ⟨[], by rw [← h5, List.append_nil]⟩
  | cons q rest ih =>
      obtain ⟨key, value⟩ := q
      intro out errors req o e r h
      unfold mappingLoop at h
      rcases hsc : scanC msg (path ++ [key]) key value out cs with ⟨n, sr⟩
      rw [hsc] at h
      cases sr with
      | raised e₂ => exact Except.noConfusion h
      | matched out₂ sk => exact ih out₂ errors (eraseSKey req sk) o e r h
      | verr es =>
          obtain ⟨tl, htl⟩ := ih out (errors ++ es) req o e r h
          exact ⟨es ++ tl, by rw [htl, List.append_assoc]⟩
      | unmatched =>
          cases hext : cfg.extra with
          | true =>
              simp only [hext, if_true] at h
              exact ih (dictSet out key value) errors req o e r h
          | false =>
              simp only [hext, Bool.false_eq_true, if_false] at h
              obtain ⟨tl, htl⟩ := ih out
                (errors ++ [⟨"extra keys not allowed", path ++ [key], "extra keys not allowed"⟩])
                req o e r h
              exact ⟨⟨"extra keys not allowed", path ++ [key], "extra keys not allowed"⟩ :: tl, by
                rw [htl, List.append_assoc]
                rfl⟩

/-- The mapping loop only discards required keys: on success the leftover
required set is a subset of the one the loop started from. -/
theorem mappingLoop_req_subset (cfg : Cfg) (msg : String) (cs : List CEntry)
    (path : List Value) :
    ∀ (pairs out : List (Value × Value)) (errors : List Invalid) (req : List SKey)
      (o : List (Value × Value)) (e : List Invalid) (r : List SKey),
      (mappingLoop cfg msg cs path pairs out errors req).2 = .ok (o, e, r) →
      ∀ k ∈ r, k ∈ req := by
  intro pairs
  induction pairs with
  | nil =>
      intro out errors req o e r h k hk
      unfold mappingLoop at h
      have h2 := Except.ok.inj h
      injection h2 with h3 h4
      injection h4 with h5 h6
      rw [h6]
      exact hk
  | cons q rest ih =>
      obtain ⟨key, value⟩ := q
      intro out errors req o e r h k hk
      unfold mappingLoop at h
      rcases hsc : scanC msg (path ++ [key]) key value out cs with ⟨n, sr⟩
      rw [hsc] at h
      cases sr with
      | raised e₂ => exact Except.noConfusion h
      | matched out₂ sk =>
          exact eraseSKey_subset sk req k (ih out₂ errors (eraseSKey req sk) o e r h k hk)
      | verr es => exact ih out (errors ++ es) req o e r h k hk
      | unmatched =>
          cases hext : cfg.extra with
          | true =>
              simp only [hext, if_true] at h
              exact ih (dictSet out key value) errors req o e r h k hk
          | false =>
              simp only [hext, Bool.false_eq_true, if_false] at h
              exact ih out
                (errors ++ [⟨"extra keys not allowed", path ++ [key], "extra keys not allowed"⟩])
                req o e r h k hk

/-- Inversion of an aborted mapping loop: the re-raised exception came out
of a key or value validator of some table entry. -/
theorem mappingLoop_error_inv (cfg : Cfg) (msg : String) (cs : List CEntry)
    (path : List Value) :
    ∀ (pairs out : List (Value × Value)) (errors : List Invalid) (req : List SKey)
      (e : Exc),
      (mappingLoop cfg msg cs path pairs out errors req).2 = .error e →
      ∃ ce ∈ cs, (∃ p x, ce.ckey p x = .error e) ∨ ∃ p x, ce.cvalue p x = .error e := by
  intro pairs
  induction pairs with
  | nil =>
      intro out errors req e h
      exact Except.noConfusion h
  | cons q rest ih =>
      obtain ⟨key, value⟩ := q
      intro out errors req e h
      unfold mappingLoop at h
      rcases hsc : scanC msg (path ++ [key]) key value out cs with ⟨n, sr⟩
      rw [hsc] at h
      cases sr with
      | raised e₂ =>
          have he := Except.error.inj h
          have hsc₂ : (scanC msg (path ++ [key]) key value out cs).2 = .raised e₂ := by
            rw [hsc]
          obtain ⟨ce, hce, hor⟩ := scanC_raised_inv msg (path ++ [key]) key value out cs e₂ hsc₂
          rcases hor with h1 | h1
          · exact ⟨ce, hce, Or.inl ⟨path ++ [key], key, he ▸ h1⟩⟩
          · exact ⟨ce, hce, Or.inr ⟨path ++ [key], value, he ▸ h1⟩⟩
      | matched out₂ sk => exact ih out₂ errors (eraseSKey req sk) e h
      | verr es => exact ih out (errors ++ es) req e h
      | unmatched =>
          cases hext : cfg.extra with
          | true =>
              simp only [hext, if_true] at h
              exact ih (dictSet out key value) errors req e h
          | false =>
              simp only [hext, Bool.false_eq_true, if_false] at h
              exact ih out
                (errors ++ [⟨"extra keys not allowed", path ++ [key], "extra keys not allowed"⟩])
                req e h

/-- A validator whose aggregates are never empty yields a non-empty error
list whenever it fails with a non-RuntimeError exception. -/
theorem errorsOf_ne_nil (f : Validator) (hne : NoEmptyMulti f) (p : List Value)
    (x : Value) (e : Exc) (h : f p x = .error e) (hr : ∀ m, e ≠ Exc.runtime m) :
    Exc.errorsOf e ≠ [] := by
  cases e with
  | invalid e₂ => simp [Exc.errorsOf]
  | multiple es => exact hne p x es h
  | runtime m => exact absurd rfl (hr m)

/-- Identity of the mapping loop: when every key validator returns keys
unchanged, every value validator is the identity on well-formed data and
never aggregates an empty error list, and the loop finishes with no
collected error, the output is the input pair list appended to the
accumulator. -/
theorem mappingLoop_id (cfg : Cfg) (msg : String) (cs : List CEntry) (path : List Value)
    (hkey : ∀ ce ∈ cs, ∀ (p : List Value) (x y : Value), ce.ckey p x = .ok y → y = x)
    (hval : ∀ ce ∈ cs, IdOnWf ce.cvalue)
    (hvne : ∀ ce ∈ cs, NoEmptyMulti ce.cvalue) :
    ∀ (pairs out : List (Value × Value)) (errors : List Invalid) (req : List SKey)
      (o : List (Value × Value)) (e : List Invalid) (r : List SKey),
      wfPairs pairs = true →
      (∀ q ∈ pairs, keyNotIn q.1 out = true) →
      (mappingLoop cfg msg cs path pairs out errors req).2 = .ok (o, e, r) →
      e = [] → o = out ++ pairs := by
  intro pairs
  induction pairs with
  | nil =>
      intro out errors req o e r _ _ h _
      unfold mappingLoop at h
      have h2 := Except.ok.inj h
      injection h2 with h3 h4
      rw [← h3, List.append_nil]
  | cons q rest ih =>
      obtain ⟨key, value⟩ := q
      intro out errors req o e r hwf hfresh h he
      have hw := wfPairs_cons key value rest hwf
      have hfr : keyNotIn key out = true := hfresh (key, value) (List.mem_cons_self _ _)
      have hfresh₂ : ∀ q ∈ rest, keyNotIn q.1 (out ++ [(key, value)]) = true := by
        intro q hq
        rw [keyNotIn_append]
        have h1 : keyNotIn q.1 out = true := hfresh q (List.mem_cons_of_mem _ hq)
        have h2 : pyEq key q.1 = false := (keyNotIn_eq_true key rest).mp hw.2.1 q hq
        have h3 : pyEq q.1 key = false := by
          rw [← pyEq_symm_hashable key q.1 hw.1]
          exact h2
        simp [keyNotIn, h1, h3]
      unfold mappingLoop at h
      rcases hsc : scanC msg (path ++ [key]) key value out cs with ⟨n, sr⟩
      rw [hsc] at h
      cases sr with
      | raised e₂ => exact Except.noConfusion h
      | matched out₂ sk =>
          have hsc₂ : (scanC msg (path ++ [key]) key value out cs).2 = .matched out₂ sk := by
            rw [hsc]
          obtain ⟨ce, hce, nk, vv, hck, hcv, hout₂, hsk⟩ :=
            scanC_matched_inv msg (path ++ [key]) key value out cs out₂ sk hsc₂
          have hnk : nk = key := hkey ce hce _ key nk hck
          have hvv : vv = value := hval ce hce _ value vv hw.2.2.2.1 hcv
          rw [hnk, hvv, dictSet_fresh key value out hfr] at hout₂
          rw [hout₂] at h
          have hrec := ih (out ++ [(key, value)]) errors (eraseSKey req sk) o e r
            hw.2.2.2.2 hfresh₂ h he
          rw [hrec, List.append_assoc]
          rfl
      | verr es =>
          have hsc₂ : (scanC msg (path ++ [key]) key value out cs).2 = .verr es := by
            rw [hsc]
          obtain ⟨ce, hce, e₂, hcv, hnr, hes⟩ :=
            scanC_verr_inv msg (path ++ [key]) key value out cs es hsc₂
          have hesne : es ≠ [] := by
            rw [hes]
            intro hnil
            exact errorsOf_ne_nil ce.cvalue (hvne ce hce) _ value e₂ hcv hnr
              ((decorateErrors_eq_nil msg (path ++ [key]) (Exc.errorsOf e₂)).mp hnil)
          obtain ⟨tl, htl⟩ := mappingLoop_errors_mono cfg msg cs path rest out
            (errors ++ es) req o e r h
          rw [he] at htl
          have h2 : errors ++ es ++ tl = [] := htl.symm
          simp only [List.append_eq_nil] at h2
          exact absurd h2.1.2 hesne
      | unmatched =>
          cases hext : cfg.extra with
          | true =>
              simp only [hext, if_true] at h
              rw [dictSet_fresh key value out hfr] at h
              have hrec := ih (out ++ [(key, value)]) errors req o e r
                hw.2.2.2.2 hfresh₂ h he
              rw [hrec, List.append_assoc]
              rfl
          | false =>
              simp only [hext, Bool.false_eq_true, if_false] at h
              obtain ⟨tl, htl⟩ := mappingLoop_errors_mono cfg msg cs path rest out
                (errors ++ [⟨"extra keys not allowed", path ++ [key], "extra keys not allowed"⟩])
                req o e r h
              rw [he] at htl
              have h2 : errors ++
                  [(⟨"extra keys not allowed", path ++ [key], "extra keys not allowed"⟩ : Invalid)]
                    ++ tl = [] := htl.symm
              simp only [List.append_eq_nil] at h2
              exact absurd h2.1.2 (by simp)

/-- The required-keys pass over keys without defaults leaves the output
dict untouched and only appends to the error list. -/
theorem requiredPass_no_defaults (path : List Value) :
    ∀ (ks : List SKey) (out : List (Value × Value)) (errors : List Invalid),
      (∀ k ∈ ks, SKey.defaultOf k = Option.none) →
      ∃ tl, requiredPass path ks out errors = (out, errors ++ tl) := by
  intro ks
  induction ks with
  | nil =>
      intro out errors _
      exact ⟨[], by simp [requiredPass]⟩
  | cons k rest ih =>
      intro out errors hd
      have hk : SKey.defaultOf k = Option.none := hd k (List.mem_cons_self _ _)
      have hd₂ : ∀ k₂ ∈ rest, SKey.defaultOf k₂ = Option.none :=
        fun k₂ h₂ => hd k₂ (List.mem_cons_of_mem _ h₂)
      obtain ⟨tl, htl⟩ := ih out
        (errors ++ [⟨(SKey.msgOf k).getD "required key not provided",
          path ++ [SKey.keyValue k],
          (SKey.msgOf k).getD "required key not provided"⟩]) hd₂
      refine ⟨⟨(SKey.msgOf k).getD "required key not provided",
        path ++ [SKey.keyValue k],
        (SKey.msgOf k).getD "required key not provided"⟩ :: tl, ?_⟩
      have hstep : requiredPass path (k :: rest) out errors
          = requiredPass path rest out
              (errors ++ [⟨(SKey.msgOf k).getD "required key not provided",
                path ++ [SKey.keyValue k],
                (SKey.msgOf k).getD "required key not provided"⟩]) := by
        simp only [requiredPass, hk]
      rw [hstep, htl, List.append_assoc]
      rfl

/-- The compiled dict validator is the identity on well-formed data and
never raises an empty aggregate, provided its key validators are literal
checks, its value validators are pure, and its required keys carry no
defaults. -/
theorem validate_dict_pure (cfg : Cfg) (cs : List CEntry) (defReq : List SKey)
    (hkey : ∀ ce ∈ cs, ∃ kv, ce.ckey = validate_value kv)
    (hval : ∀ ce ∈ cs, IdOnWf ce.cvalue)
    (hvne : ∀ ce ∈ cs, NoEmptyMulti ce.cvalue)
    (hreq : ∀ k ∈ defReq, SKey.defaultOf k = Option.none) :
    IdOnWf (validate_dict cfg cs defReq) ∧ NoEmptyMulti (validate_dict cfg cs defReq) := by
  have hkey₂ : ∀ ce ∈ cs, ∀ (p : List Value) (x y : Value), ce.ckey p x = .ok y → y = x := by
    intro ce hce p x y hcall
    obtain ⟨kv, hkv⟩ := hkey ce hce
    rw [hkv] at hcall
    exact validate_value_ok_inv kv p x y hcall
  constructor
  · intro p x y hwf h
    unfold validate_dict at h
    cases x with
    | dict pairs =>
        have h₂ : Except.map Value.dict
            (validate_mapping cfg " for dictionary value" cs defReq p pairs [])
            = Except.ok y := h
        cases hm : validate_mapping cfg " for dictionary value" cs defReq p pairs [] with
        | error e =>
            rw [hm] at h₂
            exact Except.noConfusion h₂
        | ok dout =>
            rw [hm] at h₂
            have hy : y = Value.dict dout := (Except.ok.inj h₂).symm
            unfold validate_mapping at hm
            cases hml : (mappingLoop cfg " for dictionary value" cs p pairs [] [] defReq).2 with
            | error e =>
                rw [hml] at hm
                exact Except.noConfusion hm
            | ok t =>
                obtain ⟨out, errors, req⟩ := t
                rw [hml] at hm
                have hreq₂ : ∀ k ∈ req, SKey.defaultOf k = Option.none := fun k hk =>
                  hreq k (mappingLoop_req_subset cfg " for dictionary value" cs p pairs [] [] defReq
                    out errors req hml k hk)
                obtain ⟨tl, hrp⟩ := requiredPass_no_defaults p req out errors hreq₂
                have hm₂ : (if ((requiredPass p req out errors).2).isEmpty
                    then (Except.ok ((requiredPass p req out errors).1)
                      : Except Exc (List (Value × Value)))
                    else Except.error (Exc.multiple ((requiredPass p req out errors).2)))
                    = Except.ok dout := hm
                rw [hrp] at hm₂
                have hm₃ : (if (errors ++ tl).isEmpty
                    then (Except.ok out : Except Exc (List (Value × Value)))
                    else Except.error (Exc.multiple (errors ++ tl))) = Except.ok dout := hm₂
                by_cases hemp : (errors ++ tl).isEmpty = true
                · rw [if_pos hemp] at hm₃
                  have hdout : dout = out := (Except.ok.inj hm₃).symm
                  have hnil : errors ++ tl = [] := List.isEmpty_iff.mp hemp
                  simp only [List.append_eq_nil] at hnil
                  have hwfp : wfPairs pairs = true := hwf
                  have hid := mappingLoop_id cfg " for dictionary value" cs p hkey₂ hval hvne
                    pairs [] [] defReq out errors req hwfp (fun q _ => rfl) hml hnil.1
                  rw [hy, hdout, hid, List.nil_append]
                · rw [if_neg hemp] at hm₃
                  exact Except.noConfusion hm₃
    | int n => exact Except.noConfusion h
    | str st => exact Except.noConfusion h
    | bool b => exact Except.noConfusion h
    | none => exact Except.noConfusion h
    | pytype t => exact Except.noConfusion h
    | list xs => exact Except.noConfusion h
    | set ss => exact Except.noConfusion h
    | obj cn a sl => exact Except.noConfusion h
  · intro p x es h
    unfold validate_dict at h
    cases x with
    | dict pairs =>
        have h₂ : Except.map Value.dict
            (validate_mapping cfg " for dictionary value" cs defReq p pairs [])
            = Except.error (Exc.multiple es) := h
        cases hm : validate_mapping cfg " for dictionary value" cs defReq p pairs [] with
        | ok dout =>
            rw [hm] at h₂
            exact Except.noConfusion h₂
        | error e =>
            rw [hm] at h₂
            have he : e = Exc.multiple es := Except.error.inj h₂
            subst he
            unfold validate_mapping at hm
            cases hml : (mappingLoop cfg " for dictionary value" cs p pairs [] [] defReq).2 with
            | error e₂ =>
                rw [hml] at hm
                have he₂ : e₂ = Exc.multiple es := Except.error.inj hm
                obtain ⟨ce, hce, hor⟩ := mappingLoop_error_inv cfg " for dictionary value" cs p
                  pairs [] [] defReq e₂ hml
                rcases hor with ⟨p₂, x₂, hcall⟩ | ⟨p₂, x₂, hcall⟩
                · obtain ⟨kv, hkv⟩ := hkey ce hce
                  rw [hkv] at hcall
                  have hinv := validate_value_error_inv kv p₂ x₂ e₂ hcall
                  rw [he₂] at hinv
                  exact absurd hinv (fun hh => Exc.noConfusion hh)
                · exact hvne ce hce p₂ x₂ es (he₂ ▸ hcall)
            | ok t =>
                obtain ⟨out, errors, req⟩ := t
                rw [hml] at hm
                have hreq₂ : ∀ k ∈ req, SKey.defaultOf k = Option.none := fun k hk =>
                  hreq k (mappingLoop_req_subset cfg " for dictionary value" cs p pairs [] [] defReq
                    out errors req hml k hk)
                obtain ⟨tl, hrp⟩ := requiredPass_no_defaults p req out errors hreq₂
                have hm₂ : (if ((requiredPass p req out errors).2).isEmpty
                    then (Except.ok ((requiredPass p req out errors).1)
                      : Except Exc (List (Value × Value)))
                    else Except.error (Exc.multiple ((requiredPass p req out errors).2)))
                    = Except.error (Exc.multiple es) := hm
                rw [hrp] at hm₂
                have hm₃ : (if (errors ++ tl).isEmpty
                    then (Except.ok out : Except Exc (List (Value × Value)))
                    else Except.error (Exc.multiple (errors ++ tl)))
                    = Except.error (Exc.multiple es) := hm₂
                by_cases hemp : (errors ++ tl).isEmpty = true
                · rw [if_pos hemp] at hm₃
                  exact Except.noConfusion hm₃
                · rw [if_neg hemp] at hm₃
                  have hes : errors ++ tl = es := Exc.multiple.inj (Except.error.inj hm₃)
                  intro hnil
                  rw [hes, hnil] at hemp
                  exact hemp rfl
    | int n => exact absurd (Except.error.inj h) (fun hh => Exc.noConfusion hh)
    | str st => exact absurd (Except.error.inj h) (fun hh => Exc.noConfusion hh)
    | bool b => exact absurd (Except.error.inj h) (fun hh => Exc.noConfusion hh)
    | none => exact absurd (Except.error.inj h) (fun hh => Exc.noConfusion hh)
    | pytype t => exact absurd (Except.error.inj h) (fun hh => Exc.noConfusion hh)
    | list xs => exact absurd (Except.error.inj h) (fun hh => Exc.noConfusion hh)
    | set ss => exact absurd (Except.error.inj h) (fun hh => Exc.noConfusion hh)
    | obj cn a sl => exact absurd (Except.error.inj h) (fun hh => Exc.noConfusion hh)

/-- Soundness of compilation on the pure fragment: every validator
compiled from a pure schema is the identity on well-formed data and never
raises an empty aggregate error. -/
theorem compile_pure_sound :
    ∀ (N : Nat) (s : PySchema), sizeOf s ≤ N → pureSchema s = true →
      ∀ (cfg : Cfg) (f : Validator), compile cfg s = .ok f →
      IdOnWf f ∧ NoEmptyMulti f := by
  intro N
  induction N with
  | zero =>
      intro s hs hp cfg f hc
      exact absurd hs (by
        have := pySchema_sizeOf_pos s
        omega)
  | succ N ih =>
      intro s hs hp cfg f hc
      cases s with
      | extra => exact Bool.noConfusion hp
      | anyOf alts msg => exact Bool.noConfusion hp
      | set alts => exact Bool.noConfusion hp
      | object cls entries => exact Bool.noConfusion hp
      | type t =>
          have hf : f = validate_instance t := (Except.ok.inj hc).symm
          subst hf
          constructor
          · intro p x y _ h
            exact validate_instance_ok_inv t p x y h
          · intro p x es h
            unfold validate_instance at h
            by_cases hq : isInstance x t = true
            · rw [if_pos hq] at h
              exact Except.noConfusion h
            · rw [if_neg hq] at h
              exact absurd (Except.error.inj h) (fun hh => Exc.noConfusion hh)
      | val v =>
          cases v with
          | int i =>
              have hf : f = validate_value (.int i) := (Except.ok.inj hc).symm
              subst hf
              constructor
              · intro p x y _ h
                exact validate_value_ok_inv (.int i) p x y h
              · intro p x es h
                have hinv := validate_value_error_inv (.int i) p x _ h
                exact absurd hinv (fun hh => Exc.noConfusion hh)
          | str st =>
              have hf : f = validate_value (.str st) := (Except.ok.inj hc).symm
              subst hf
              constructor
              · intro p x y _ h
                exact validate_value_ok_inv (.str st) p x y h
              · intro p x es h
                have hinv := validate_value_error_inv (.str st) p x _ h
                exact absurd hinv (fun hh => Exc.noConfusion hh)
          | none =>
              have hf : f = validate_value .none := (Except.ok.inj hc).symm
              subst hf
              constructor
              · intro p x y _ h
                exact validate_value_ok_inv .none p x y h
              · intro p x es h
                have hinv := validate_value_error_inv .none p x _ h
                exact absurd hinv (fun hh => Exc.noConfusion hh)
          | bool b => exact Bool.noConfusion hp
          | pytype t => exact Bool.noConfusion hp
          | list l => exact Bool.noConfusion hp
          | dict d => exact Bool.noConfusion hp
          | set l => exact Bool.noConfusion hp
          | obj cn a sl => exact Bool.noConfusion hp
      | list alts =>
          have hp₂ : pureSchemas alts = true := hp
          unfold compile at hc
          cases hcl : compileList cfg alts with
          | error m =>
              rw [hcl] at hc
              exact Except.noConfusion hc
          | ok cs =>
              rw [hcl] at hc
              have hf : f = validate_sequence cs alts.isEmpty "list" := (Except.ok.inj hc).symm
              subst hf
              have hmem := compileList_mem cfg alts cs hcl
              have hsub : ∀ c ∈ cs, IdOnWf c ∧ NoEmptyMulti c := by
                intro c hcmem
                obtain ⟨a, ha, hca⟩ := hmem c hcmem
                have hsz : sizeOf a ≤ N := by
                  have h1 := List.sizeOf_lt_of_mem ha
                  have h2 : sizeOf (PySchema.list alts) = 1 + sizeOf alts := by simp
                  omega
                exact ih a hsz (pureSchemas_mem alts hp₂ a ha) cfg c hca
              exact validate_sequence_pure cs alts.isEmpty "list"
                (fun c hcm => (hsub c hcm).1) (fun c hcm => (hsub c hcm).2)
      | dict entries =>
          have hp₂ : pureEntries entries = true := hp
          unfold compile at hc
          cases hce : compileEntries cfg entries with
          | error m =>
              rw [hce] at hc
              exact Except.noConfusion hc
          | ok cs =>
              rw [hce] at hc
              have hf : f = validate_dict cfg cs (defaultRequired cfg entries) :=
                (Except.ok.inj hc).symm
              subst hf
              have hmem := compileEntries_mem cfg entries cs hce
              have hkey : ∀ ce ∈ cs, ∃ kv, ce.ckey = validate_value kv := by
                intro ce hcem
                obtain ⟨sk, sv, hin, hsk, hck, hcv⟩ := hmem ce hcem
                have hpk : pureKey sk = true := (pureEntries_mem entries hp₂ (sk, sv) hin).1
                obtain ⟨kv, hkv⟩ := pureKey_compileSKey cfg sk hpk ce.ckey hck
                exact ⟨kv, hkv⟩
              have hsub : ∀ ce ∈ cs, IdOnWf ce.cvalue ∧ NoEmptyMulti ce.cvalue := by
                intro ce hcem
                obtain ⟨sk, sv, hin, hsk, hck, hcv⟩ := hmem ce hcem
                have hpv : pureSchema sv = true := (pureEntries_mem entries hp₂ (sk, sv) hin).2
                have hsz : sizeOf sv ≤ N := by
                  have h1 := List.sizeOf_lt_of_mem hin
                  have h2 : sizeOf (PySchema.dict entries) = 1 + sizeOf entries := by simp
                  have h3 : sizeOf (sk, sv) = 1 + sizeOf sk + sizeOf sv := by simp
                  omega
                exact ih sv hsz hpv cfg ce.cvalue hcv
              have hreq : ∀ k ∈ defaultRequired cfg entries, SKey.defaultOf k = Option.none := by
                intro k hk
                obtain ⟨pk, hpkm, hfst⟩ := List.mem_map.mp (defaultRequired_mem cfg entries k hk)
                have hpk : pureKey pk.1 = true := (pureEntries_mem entries hp₂ pk hpkm).1
                rw [← hfst]
                exact pureKey_defaultOf pk.1 hpk
              exact validate_dict_pure cfg cs (defaultRequired cfg entries) hkey
                (fun ce hcm => (hsub ce hcm).1) (fun ce hcm => (hsub ce hcm).2) hreq

/-- C8 (amended): on the pure schema fragment — scalar literals, type
checks, sequences and mappings with bare scalar-literal keys, no markers
with defaults and no transforming callables — a successful validation of
well-formed data returns its input unchanged, and therefore revalidating
the output succeeds with the same result: validation is idempotent
there. -/
theorem c8_pure_fragment_fixed_point (cfg : Cfg) (s : PySchema) (v w : Value)
    (h1 : pureSchema s = true) (h2 : wfValue v = true)
    (h3 : runSchema cfg s v = .ok (.ok w)) :
    w = v ∧ runSchema cfg s w = .ok (.ok w) := by
  unfold runSchema schemaFn at h3
  cases hc : compile cfg s with
  | error m =>
      rw [hc] at h3
      exact Except.noConfusion h3
  | ok f =>
      rw [hc] at h3
      have hfv : f [] v = .ok w := wrapMulti_ok _ _ (Except.ok.inj h3)
      have hw : w = v :=
        (compile_pure_sound (sizeOf s) s (Nat.le_refl _) h1 cfg f hc).1 [] v w h2 hfv
      subst hw
      refine ⟨rfl, ?_⟩
      unfold runSchema schemaFn
      rw [hc]
      show Except.ok (wrapMulti (f [] w)) = Except.ok (Except.ok w)
      rw [hfv]
      rfl

/-- Concrete instance of the pure-fragment fixed point: the schema
{"a": int} validates {"a": 1} to itself, and validating the output again
gives the same result. -/
theorem c8_pure_fragment_fixed_point_witness :
    pureSchema (PySchema.dict [(SKey.plain (.val (.str "a")), PySchema.type .int)]) = true ∧
    wfValue (Value.dict [(.str "a", .int 1)]) = true ∧
    (Value.dict [(.str "a", .int 1)] = Value.dict [(.str "a", .int 1)] ∧
      runSchema cfgDefault (PySchema.dict [(SKey.plain (.val (.str "a")), PySchema.type .int)])
        (Value.dict [(.str "a", .int 1)]) = .ok (.ok (Value.dict [(.str "a", .int 1)]))) :=
  ⟨rfl, rfl,
    c8_pure_fragment_fixed_point cfgDefault
      (PySchema.dict [(SKey.plain (.val (.str "a")), PySchema.type .int)])
      (Value.dict [(.str "a", .int 1)]) (Value.dict [(.str "a", .int 1)])
      rfl rfl rfl⟩

/-- Under flat alternatives the alternatives loop never re-raises: it
accepts, or it exhausts an empty list keeping the incoming error, or it
fails remembering a flat error located exactly at the index path. -/
theorem altLoop_flat (ip : List Value) (v : Value) :
    ∀ (cs : List Validator), (∀ c ∈ cs, FlatVal c) → ∀ (inv : Option Exc),
      (∃ o, altLoop ip v cs inv = .ok o) ∨
      (altLoop ip v cs inv = .failed inv ∧ cs = []) ∨
      (∃ e : Invalid, altLoop ip v cs inv = .failed (Option.some (Exc.invalid e)) ∧
        e.path = ip) := by
  intro cs
  induction cs with
  | nil => intro _ inv; exact Or.inr (Or.inl ⟨rfl, rfl⟩)
  | cons c rest ih =>
      intro hf inv
      rcases hf c (List.mem_cons_self _ _) ip v with ⟨w, hw⟩ | ⟨e, he, hp⟩
      · left
        refine ⟨w, ?_⟩
        unfold altLoop
        rw [hw]
      · have hle : ¬(Exc.path (Exc.invalid e)).length > ip.length := by
          show ¬e.path.length > ip.length
          rw [hp]
          omega
        have hstep : altLoop ip v (c :: rest) inv =
            altLoop ip v rest (Option.some (Exc.invalid e)) := by
          simp only [altLoop]
          rw [he]
          show (if (Exc.path (Exc.invalid e)).length > ip.length
              then SeqAltOut.raised (Exc.invalid e)
              else altLoop ip v rest (Option.some (Exc.invalid e))) = _
          rw [if_neg hle]
        rcases ih (fun c₂ h₂ => hf c₂ (List.mem_cons_of_mem _ h₂))
            (Option.some (Exc.invalid e)) with
          ⟨o, ho⟩ | ⟨hf₂, hnil⟩ | ⟨e₂, he₂, hp₂⟩
        · exact Or.inl ⟨o, hstep.trans ho⟩
        · exact Or.inr (Or.inr ⟨e, hstep.trans hf₂, hp⟩)
        · exact Or.inr (Or.inr ⟨e₂, hstep.trans he₂, hp₂⟩)

/-- Under flat alternatives the element loop never aborts: every element
is processed, successes extend the output, and each failing element
contributes exactly one synthetic invalid-value error at its own index
path, all collected in order. -/
theorem seqLoop_flat_collects (cs : List Validator) (tn : String) (path : List Value)
    (hf : ∀ c ∈ cs, FlatVal c) :
    ∀ (xs : List Value) (i : Nat) (out : List Value) (errors : List Invalid),
      ∃ out₂, seqLoop cs tn path xs i out errors =
        .ok (out₂, errors ++ seqErrsAll cs tn path xs i) := by
  intro xs
  induction xs with
  | nil =>
      intro i out errors
      exact ⟨out, by simp [seqLoop, seqErrsAll]⟩
  | cons v rest ih =>
      intro i out errors
      rcases altLoop_flat (path ++ [.int (i : Int)]) v cs hf Option.none with
        ⟨o, ho⟩ | ⟨hfo, hnil⟩ | ⟨e, he, hp⟩
      · have hfail : seqElemFails cs (path ++ [.int (i : Int)]) v = false := by
          unfold seqElemFails
          rw [ho]
        have hstep : seqLoop cs tn path (v :: rest) i out errors =
            seqLoop cs tn path rest (i + 1) (out ++ [o]) errors := by
          simp only [seqLoop]
          rw [ho]
        obtain ⟨out₂, hrec⟩ := ih (i + 1) (out ++ [o]) errors
        refine ⟨out₂, ?_⟩
        have herrs : seqErrsAll cs tn path (v :: rest) i =
            seqErrsAll cs tn path rest (i + 1) := by
          simp only [seqErrsAll]
          rw [hfail]
          simp
        rw [hstep, hrec, herrs]
      · have hfail : seqElemFails cs (path ++ [.int (i : Int)]) v = true := by
          unfold seqElemFails
          rw [hfo]
        have hstep : seqLoop cs tn path (v :: rest) i out errors =
            seqLoop cs tn path rest (i + 1) out (errors ++
              [⟨"invalid " ++ tn ++ " value", path ++ [.int (i : Int)],
                "invalid " ++ tn ++ " value"⟩]) := by
          simp only [seqLoop]
          rw [hfo]
          rfl
        obtain ⟨out₂, hrec⟩ := ih (i + 1) out (errors ++
          [⟨"invalid " ++ tn ++ " value", path ++ [.int (i : Int)],
            "invalid " ++ tn ++ " value"⟩])
        refine ⟨out₂, ?_⟩
        have herrs : seqErrsAll cs tn path (v :: rest) i =
            (⟨"invalid " ++ tn ++ " value", path ++ [.int (i : Int)],
              "invalid " ++ tn ++ " value"⟩ : Invalid) ::
              seqErrsAll cs tn path rest (i + 1) := by
          simp only [seqErrsAll]
          rw [hfail]
          simp
        rw [hstep, hrec, herrs, List.append_assoc]
        rfl
      · have hfail : seqElemFails cs (path ++ [.int (i : Int)]) v = true := by
          unfold seqElemFails
          rw [he]
        have hserr : seqElemErr tn (path ++ [.int (i : Int)]) (Option.some (Exc.invalid e)) =
            ⟨"invalid " ++ tn ++ " value", path ++ [.int (i : Int)],
              "invalid " ++ tn ++ " value"⟩ := by
          show (if (Exc.path (Exc.invalid e)).length ≤ (path ++ [Value.int (i : Int)]).length
              then (⟨"invalid " ++ tn ++ " value", path ++ [.int (i : Int)],
                "invalid " ++ tn ++ " value"⟩ : Invalid)
              else ⟨Exc.msgOf (Exc.invalid e), Exc.path (Exc.invalid e),
                Exc.errmsgOf (Exc.invalid e)⟩)
            = ⟨"invalid " ++ tn ++ " value", path ++ [.int (i : Int)],
                "invalid " ++ tn ++ " value"⟩
          rw [if_pos (by rw [show Exc.path (Exc.invalid e) = e.path from rfl, hp])]
        have hstep : seqLoop cs tn path (v :: rest) i out errors =
            seqLoop cs tn path rest (i + 1) out (errors ++
              [seqElemErr tn (path ++ [.int (i : Int)]) (Option.some (Exc.invalid e))]) := by
          simp only [seqLoop]
          rw [he]
        obtain ⟨out₂, hrec⟩ := ih (i + 1) out (errors ++
          [⟨"invalid " ++ tn ++ " value", path ++ [.int (i : Int)],
            "invalid " ++ tn ++ " value"⟩])
        refine ⟨out₂, ?_⟩
        have herrs : seqErrsAll cs tn path (v :: rest) i =
            (⟨"invalid " ++ tn ++ " value", path ++ [.int (i : Int)],
              "invalid " ++ tn ++ " value"⟩ : Invalid) ::
              seqErrsAll cs tn path rest (i + 1) := by
          simp only [seqErrsAll]
          rw [hfail]
          simp
        rw [hstep, hserr, hrec, herrs, List.append_assoc]
        rfl

/-- The outcome of the candidate scan does not depend on the output
accumulator, except that a match writes the pair into whichever
accumulator was given: the per-pair outcome is an independent fact about
the pair and the schema table. -/
theorem scanC_out_agnostic (msg : String) (kp : List Value) (key value : Value) :
    ∀ (cs : List CEntry) (out out₃ : List (Value × Value)),
      (scanC msg kp key value out cs).2 = (scanC msg kp key value out₃ cs).2 ∨
      ∃ nk vv sk, (scanC msg kp key value out cs).2 = .matched (dictSet out nk vv) sk ∧
        (scanC msg kp key value out₃ cs).2 = .matched (dictSet out₃ nk vv) sk := by
  intro cs
  induction cs with
  | nil => intro out out₃; exact Or.inl rfl
  | cons ce rest ih =>
      intro out out₃
      cases hck : ce.ckey kp key with
      | ok nk =>
          cases hcv : ce.cvalue kp value with
          | ok vv =>
              right
              refine ⟨nk, vv, ce.skey, ?_, ?_⟩
              · have hstep : (scanC msg kp key value out (ce :: rest)).2 =
                    ScanOut.matched (dictSet out nk vv) ce.skey := by
                  simp only [scanC]
                  rw [hck, hcv]
                exact hstep
              · have hstep : (scanC msg kp key value out₃ (ce :: rest)).2 =
                    ScanOut.matched (dictSet out₃ nk vv) ce.skey := by
                  simp only [scanC]
                  rw [hck, hcv]
                exact hstep
          | error e =>
              left
              cases e with
              | runtime m =>
                  have h1 : (scanC msg kp key value out (ce :: rest)).2 =
                      ScanOut.raised (Exc.runtime m) := by
                    simp only [scanC]
                    rw [hck, hcv]
                  have h2 : (scanC msg kp key value out₃ (ce :: rest)).2 =
                      ScanOut.raised (Exc.runtime m) := by
                    simp only [scanC]
                    rw [hck, hcv]
                  rw [h1, h2]
              | invalid e₃ =>
                  have h1 : (scanC msg kp key value out (ce :: rest)).2 =
                      ScanOut.verr (decorateErrors msg kp (Exc.errorsOf (Exc.invalid e₃))) := by
                    simp only [scanC]
                    rw [hck, hcv]
                  have h2 : (scanC msg kp key value out₃ (ce :: rest)).2 =
                      ScanOut.verr (decorateErrors msg kp (Exc.errorsOf (Exc.invalid e₃))) := by
                    simp only [scanC]
                    rw [hck, hcv]
                  rw [h1, h2]
              | multiple mes =>
                  have h1 : (scanC msg kp key value out (ce :: rest)).2 =
                      ScanOut.verr (decorateErrors msg kp (Exc.errorsOf (Exc.multiple mes))) := by
                    simp only [scanC]
                    rw [hck, hcv]
                  have h2 : (scanC msg kp key value out₃ (ce :: rest)).2 =
                      ScanOut.verr (decorateErrors msg kp (Exc.errorsOf (Exc.multiple mes))) := by
                    simp only [scanC]
                    rw [hck, hcv]
                  rw [h1, h2]
      | error e =>
          cases e with
          | runtime m =>
              left
              have h1 : (scanC msg kp key value out (ce :: rest)).2 =
                  ScanOut.raised (Exc.runtime m) := by
                simp only [scanC]
                rw [hck]
              have h2 : (scanC msg kp key value out₃ (ce :: rest)).2 =
                  ScanOut.raised (Exc.runtime m) := by
                simp only [scanC]
                rw [hck]
              rw [h1, h2]
          | invalid e₃ =>
              by_cases hd : (Exc.path (Exc.invalid e₃)).length > kp.length
              · left
                have h1 : (scanC msg kp key value out (ce :: rest)).2 =
                    ScanOut.raised (Exc.invalid e₃) := by
                  simp only [scanC]
                  rw [hck]
                  show (if (Exc.path (Exc.invalid e₃)).length > kp.length
                      then ((1 : Nat), ScanOut.raised (Exc.invalid e₃))
                      else ((scanC msg kp key value out rest).1 + 1,
                            (scanC msg kp key value out rest).2)).2 = _
                  rw [if_pos hd]
                have h2 : (scanC msg kp key value out₃ (ce :: rest)).2 =
                    ScanOut.raised (Exc.invalid e₃) := by
                  simp only [scanC]
                  rw [hck]
                  show (if (Exc.path (Exc.invalid e₃)).length > kp.length
                      then ((1 : Nat), ScanOut.raised (Exc.invalid e₃))
                      else ((scanC msg kp key value out₃ rest).1 + 1,
                            (scanC msg kp key value out₃ rest).2)).2 = _
                  rw [if_pos hd]
                rw [h1, h2]
              · have h1 : (scanC msg kp key value out (ce :: rest)).2 =
                    (scanC msg kp key value out rest).2 := by
                  simp only [scanC]
                  rw [hck]
                  show (if (Exc.path (Exc.invalid e₃)).length > kp.length
                      then ((1 : Nat), ScanOut.raised (Exc.invalid e₃))
                      else ((scanC msg kp key value out rest).1 + 1,
                            (scanC msg kp key value out rest).2)).2 = _
                  rw [if_neg hd]
                have h2 : (scanC msg kp key value out₃ (ce :: rest)).2 =
                    (scanC msg kp key value out₃ rest).2 := by
                  simp only [scanC]
                  rw [hck]
                  show (if (Exc.path (Exc.invalid e₃)).length > kp.length
                      then ((1 : Nat), ScanOut.raised (Exc.invalid e₃))
                      else ((scanC msg kp key value out₃ rest).1 + 1,
                            (scanC msg kp key value out₃ rest).2)).2 = _
                  rw [if_neg hd]
                rcases ih out out₃ with heq | ⟨nk, vv, sk, ha, hb⟩
                · left
                  rw [h1, h2, heq]
                · right
                  exact ⟨nk, vv, sk, h1.trans ha, h2.trans hb⟩
          | multiple mes =>
              by_cases hd : (Exc.path (Exc.multiple mes)).length > kp.length
              · left
                have h1 : (scanC msg kp key value out (ce :: rest)).2 =
                    ScanOut.raised (Exc.multiple mes) := by
                  simp only [scanC]
                  rw [hck]
                  show (if (Exc.path (Exc.multiple mes)).length > kp.length
                      then ((1 : Nat), ScanOut.raised (Exc.multiple mes))
                      else ((scanC msg kp key value out rest).1 + 1,
                            (scanC msg kp key value out rest).2)).2 = _
                  rw [if_pos hd]
                have h2 : (scanC msg kp key value out₃ (ce :: rest)).2 =
                    ScanOut.raised (Exc.multiple mes) := by
                  simp only [scanC]
                  rw [hck]
                  show (if (Exc.path (Exc.multiple mes)).length > kp.length
                      then ((1 : Nat), ScanOut.raised (Exc.multiple mes))
                      else ((scanC msg kp key value out₃ rest).1 + 1,
                            (scanC msg kp key value out₃ rest).2)).2 = _
                  rw [if_pos hd]
                rw [h1, h2]
              · have h1 : (scanC msg kp key value out (ce :: rest)).2 =
                    (scanC msg kp key value out rest).2 := by
                  simp only [scanC]
                  rw [hck]
                  show (if (Exc.path (Exc.multiple mes)).length > kp.length
                      then ((1 : Nat), ScanOut.raised (Exc.multiple mes))
                      else ((scanC msg kp key value out rest).1 + 1,
                            (scanC msg kp key value out rest).2)).2 = _
                  rw [if_neg hd]
                have h2 : (scanC msg kp key value out₃ (ce :: rest)).2 =
                    (scanC msg kp key value out₃ rest).2 := by
                  simp only [scanC]
                  rw [hck]
                  show (if (Exc.path (Exc.multiple mes)).length > kp.length
                      then ((1 : Nat), ScanOut.raised (Exc.multiple mes))
                      else ((scanC msg kp key value out₃ rest).1 + 1,
                            (scanC msg kp key value out₃ rest).2)).2 = _
                  rw [if_neg hd]
                rcases ih out out₃ with heq | ⟨nk, vv, sk, ha, hb⟩
                · left
                  rw [h1, h2, heq]
                · right
                  exact ⟨nk, vv, sk, h1.trans ha, h2.trans hb⟩

/-- Under flat keys and flat values the mapping loop never aborts: every
input pair is processed and the final error list is the initial one
followed by each pair's independent contribution, in insertion order. -/
theorem mappingLoop_flat_collects (cfg : Cfg) (msg : String) (cs : List CEntry)
    (path : List Value) (hfk : FlatKeys cs) (hfv : ∀ ce ∈ cs, FlatVal ce.cvalue) :
    ∀ (pairs out : List (Value × Value)) (errors : List Invalid) (req : List SKey),
      ∃ out₄ req₄, (mappingLoop cfg msg cs path pairs out errors req).2 =
        .ok (out₄, errors ++ dictErrsAll cfg msg cs path pairs, req₄) := by
  intro pairs
  induction pairs with
  | nil =>
      intro out errors req
      exact ⟨out, req, by simp [mappingLoop, dictErrsAll]⟩
  | cons q rest ih =>
      obtain ⟨key, value⟩ := q
      intro out errors req
      rcases hsc : scanC msg (path ++ [key]) key value out cs with ⟨n, sr⟩
      have hag := scanC_out_agnostic msg (path ++ [key]) key value cs out []
      have hcons : dictErrsAll cfg msg cs path ((key, value) :: rest) =
          pairErrs cfg msg cs path key value ++ dictErrsAll cfg msg cs path rest := rfl
      cases sr with
      | raised e =>
          exfalso
          have hout : (scanC msg (path ++ [key]) key value out cs).2 = .raised e := by
            rw [hsc]
          rcases scanC_flat msg (path ++ [key]) key value out cs hfk with
            ⟨o₂, sk, h⟩ | ⟨es, h⟩ | h | ⟨m, h⟩
          · rw [hout] at h
            exact ScanOut.noConfusion h
          · rw [hout] at h
            exact ScanOut.noConfusion h
          · rw [hout] at h
            exact ScanOut.noConfusion h
          · rw [hout] at h
            have he := ScanOut.raised.inj h
            obtain ⟨ce, hce, hor⟩ := scanC_raised_inv msg (path ++ [key]) key value out cs
              e hout
            rw [he] at hor
            rcases hor with h1 | h1
            · rcases hfk ce hce (path ++ [key]) key with ⟨w, hw⟩ | ⟨e2, he2, hp⟩
              · exact Except.noConfusion (hw.symm.trans h1)
              · have := he2.symm.trans h1
                exact Exc.noConfusion (Except.error.inj this)
            · rcases hfv ce hce (path ++ [key]) value with ⟨w, hw⟩ | ⟨e2, he2, hp⟩
              · exact Except.noConfusion (hw.symm.trans h1)
              · have := he2.symm.trans h1
                exact Exc.noConfusion (Except.error.inj this)
      | matched out₂ sk =>
          have hpe : pairErrs cfg msg cs path key value = [] := by
            rcases hag with heq | ⟨nk, vv, sk₂, ha, hb⟩
            · unfold pairErrs
              rw [← heq, hsc]
            · unfold pairErrs
              rw [hb]
          have hstep : (mappingLoop cfg msg cs path ((key, value) :: rest) out errors req).2 =
              (mappingLoop cfg msg cs path rest out₂ errors (eraseSKey req sk)).2 := by
            simp only [mappingLoop]
            rw [hsc]
          obtain ⟨o₄, r₄, hrec⟩ := ih out₂ errors (eraseSKey req sk)
          refine ⟨o₄, r₄, ?_⟩
          rw [hstep, hrec, hcons, hpe, List.nil_append]
      | verr es =>
          have hpe : pairErrs cfg msg cs path key value = es := by
            rcases hag with heq | ⟨nk, vv, sk₂, ha, hb⟩
            · unfold pairErrs
              rw [← heq, hsc]
            · rw [hsc] at ha
              exact absurd ha (fun hh => ScanOut.noConfusion hh)
          have hstep : (mappingLoop cfg msg cs path ((key, value) :: rest) out errors req).2 =
              (mappingLoop cfg msg cs path rest out (errors ++ es) req).2 := by
            simp only [mappingLoop]
            rw [hsc]
          obtain ⟨o₄, r₄, hrec⟩ := ih out (errors ++ es) req
          refine ⟨o₄, r₄, ?_⟩
          rw [hstep, hrec, hcons, hpe, List.append_assoc]
      | unmatched =>
          have hpe : pairErrs cfg msg cs path key value =
              (if cfg.extra then []
               else [⟨"extra keys not allowed", path ++ [key],
                 "extra keys not allowed"⟩]) := by
            rcases hag with heq | ⟨nk, vv, sk₂, ha, hb⟩
            · unfold pairErrs
              rw [← heq, hsc]
            · rw [hsc] at ha
              exact absurd ha (fun hh => ScanOut.noConfusion hh)
          cases hext : cfg.extra with
          | true =>
              have hpe₂ : pairErrs cfg msg cs path key value = [] := by
                rw [hpe, hext]
                simp
              have hstep : (mappingLoop cfg msg cs path ((key, value) :: rest) out errors req).2 =
                  (mappingLoop cfg msg cs path rest (dictSet out key value) errors req).2 := by
                simp only [mappingLoop]
                rw [hsc]
                simp only [hext, if_true]
              obtain ⟨o₄, r₄, hrec⟩ := ih (dictSet out key value) errors req
              refine ⟨o₄, r₄, ?_⟩
              rw [hstep, hrec, hcons, hpe₂, List.nil_append]
          | false =>
              have hpe₂ : pairErrs cfg msg cs path key value =
                  [⟨"extra keys not allowed", path ++ [key], "extra keys not allowed"⟩] := by
                rw [hpe, hext]
                simp
              have hstep : (mappingLoop cfg msg cs path ((key, value) :: rest) out errors req).2 =
                  (mappingLoop cfg msg cs path rest out
                    (errors ++ [⟨"extra keys not allowed", path ++ [key],
                      "extra keys not allowed"⟩]) req).2 := by
                simp only [mappingLoop]
                rw [hsc]
                simp only [hext, Bool.false_eq_true, if_false]
              obtain ⟨o₄, r₄, hrec⟩ := ih out
                (errors ++ [⟨"extra keys not allowed", path ++ [key],
                  "extra keys not allowed"⟩]) req
              refine ⟨o₄, r₄, ?_⟩
              rw [hstep, hrec, hcons, hpe₂, List.append_assoc]

/-- C1 (amended): one validation call aggregates independent failures
into a single MultipleInvalid exactly for failures located at the failing
entry's own path.  Universally: for every sequence validator table whose
alternatives are flat (fail only with a single error at the path they are
handed, as every compiled literal or type schema does) and every input
list, each element is processed and each failing element contributes
exactly one error at its own index path, all reported together; and for
every mapping table with flat key and value validators and every input
dict, each pair is processed and contributes its independently-determined
errors, all reported together.  An error strictly deeper than the
element's index path (sequences) or the key path (mappings) is instead
re-raised at once, aborting validation with later failing siblings
unprocessed — the counterexample shows this abort for a nested
sequence. -/
theorem c1_flat_failures_all_collected :
    (∀ (cs : List Validator) (tn : String) (path : List Value) (xs : List Value),
      (∀ c ∈ cs, FlatVal c) →
      ∃ out, validate_sequence cs false tn path (.list xs) =
        (if (seqErrsAll cs tn path xs 0).isEmpty then .ok (.list out)
         else .error (.multiple (seqErrsAll cs tn path xs 0)))) ∧
    (∀ (cfg : Cfg) (cs : List CEntry) (path : List Value)
        (pairs : List (Value × Value)),
      FlatKeys cs → (∀ ce ∈ cs, FlatVal ce.cvalue) →
      ∃ out, validate_dict cfg cs [] path (.dict pairs) =
        (if (dictErrsAll cfg " for dictionary value" cs path pairs).isEmpty
         then .ok (.dict out)
         else .error (.multiple (dictErrsAll cfg " for dictionary value" cs path pairs)))) := by
  constructor
  · intro cs tn path xs hf
    obtain ⟨out₂, hsl⟩ := seqLoop_flat_collects cs tn path hf xs 0 [] []
    simp only [List.nil_append] at hsl
    refine ⟨out₂, ?_⟩
    have h2 : validate_sequence cs false tn path (.list xs) =
        (match seqLoop cs tn path xs 0 [] [] with
         | .error e => Except.error e
         | .ok (out, errors) =>
             if errors.isEmpty then Except.ok (Value.list out)
             else Except.error (Exc.multiple errors)) := rfl
    rw [h2, hsl]
  · intro cfg cs path pairs hfk hfv
    obtain ⟨out₂, req₂, hml⟩ :=
      mappingLoop_flat_collects cfg " for dictionary value" cs path hfk hfv pairs [] [] []
    simp only [List.nil_append] at hml
    have hreq : req₂ = [] := by
      have hsub := mappingLoop_req_subset cfg " for dictionary value" cs path pairs [] [] []
        out₂ (dictErrsAll cfg " for dictionary value" cs path pairs) req₂ hml
      cases req₂ with
      | nil => rfl
      | cons k ks => exact absurd (hsub k (List.mem_cons_self _ _)) (List.not_mem_nil k)
    subst hreq
    refine ⟨out₂, ?_⟩
    have h2 : validate_dict cfg cs [] path (.dict pairs) =
        Except.map Value.dict
          (validate_mapping cfg " for dictionary value" cs [] path pairs []) := rfl
    have h3 : validate_mapping cfg " for dictionary value" cs [] path pairs [] =
        (if (dictErrsAll cfg " for dictionary value" cs path pairs).isEmpty
         then Except.ok out₂
         else Except.error
           (Exc.multiple (dictErrsAll cfg " for dictionary value" cs path pairs))) := by
      unfold validate_mapping
      rw [hml]
      rfl
    rw [h2, h3]
    by_cases hemp : (dictErrsAll cfg " for dictionary value" cs path pairs).isEmpty = true
    · rw [if_pos hemp, if_pos hemp]
      rfl
    · rw [if_neg hemp, if_neg hemp]
      rfl

/-- Concrete instance of the flat-failure aggregation: a list-of-int
schema over a two-element input with one bad element, and a one-key dict
schema over an input with one failing value and one extra key. -/
theorem c1_flat_failures_all_collected_witness :
    (∃ out, validate_sequence [validate_instance PyTy.int] false "list" []
        (.list [.str "a", .int 1]) =
      (if (seqErrsAll [validate_instance PyTy.int] "list" [] [.str "a", .int 1] 0).isEmpty
       then .ok (.list out)
       else .error (.multiple (seqErrsAll [validate_instance PyTy.int] "list" []
         [.str "a", .int 1] 0)))) ∧
    (∃ out, validate_dict cfgDefault
        [⟨SKey.plain (.val (.str "a")), validate_value (.str "a"), validate_instance .int⟩] [] []
        (.dict [(.str "a", .str "x"), (.str "b", .int 2)]) =
      (if (dictErrsAll cfgDefault " for dictionary value"
            [⟨SKey.plain (.val (.str "a")), validate_value (.str "a"), validate_instance .int⟩]
            [] [(.str "a", .str "x"), (.str "b", .int 2)]).isEmpty
       then .ok (.dict out)
       else .error (.multiple (dictErrsAll cfgDefault " for dictionary value"
         [⟨SKey.plain (.val (.str "a")), validate_value (.str "a"), validate_instance .int⟩]
         [] [(.str "a", .str "x"), (.str "b", .int 2)])))) :=
  ⟨c1_flat_failures_all_collected.1 [validate_instance PyTy.int] "list" [] [.str "a", .int 1]
     (fun c hc => by
       rw [List.mem_singleton] at hc
       rw [hc]
       exact validate_instance_flat PyTy.int),
   c1_flat_failures_all_collected.2 cfgDefault
     [⟨SKey.plain (.val (.str "a")), validate_value (.str "a"), validate_instance .int⟩] []
     [(.str "a", .str "x"), (.str "b", .int 2)]
     (fun ce hce => by
       rw [List.mem_singleton] at hce
       rw [hce]
       exact validate_value_flat (.str "a"))
     (fun ce hce => by
       rw [List.mem_singleton] at hce
       rw [hce]
       exact validate_instance_flat PyTy.int)⟩

end Voluptuous
